import Mathlib

/-!
Shallow embedding of the DevilsDatabase physical-execution subsystem
(`src/ddb/executor` and `src/ddb/planner`), together with proofs about the
behaviour of its operators.

Conventions used throughout:
* Python rows (tuples) become values of an abstract type; `getsizeof` becomes
  an arbitrary size function `sz : _ → Nat` supplied as a parameter.
* Heap files are represented by the list of rows they contain, in file order;
  `batch_append` is list append.
* Three-way comparators compiled from sort expressions become functions into
  `Int` returning negative / zero / positive.
* Generators become the list of the rows they yield, in order.
-/

namespace DDB

/-- `ddb.globals.BLOCK_SIZE`. -/
def BLOCK_SIZE : Nat := 4028

/-- `ddb.globals.DEFAULT_HASH_MAX_DEPTH`: cap on hash-join partitioning passes. -/
def DEFAULT_HASH_MAX_DEPTH : Nat := 3

universe u v w

/-! ## BufferedWriter (`executor/util.py`, class `BufferedWriter`)

State of a `BufferedWriter`: the memory budget `maxBytes`
(`num_memory_blocks * BLOCK_SIZE`), the in-memory `buffer` with its
approximate byte count, the `num_blocks_flushed` counter, and the contents of
the underlying heap file (`fileRows`, extended by each `batch_append`). -/

structure BufferedWriter (α : Type u) where
  maxBytes : Nat
  buffer : List α
  numBytes : Nat
  numBlocksFlushed : Nat
  fileRows : List α
deriving Repr, DecidableEq

/-- `BufferedWriter.__init__(file, num_memory_blocks)` on an empty file. -/
def mkBufferedWriter (α : Type u) (numMemoryBlocks : Nat) : BufferedWriter α :=
  ⟨numMemoryBlocks * BLOCK_SIZE, [], 0, 0, []⟩

/-- `BufferedWriter.flush`: batch-append the buffer to the file, bump the
counter, clear the buffer. -/
def BufferedWriter.flushW {α : Type u} (w : BufferedWriter α) : BufferedWriter α :=
  { w with fileRows := w.fileRows ++ w.buffer,
           numBlocksFlushed := w.numBlocksFlushed + 1,
           buffer := [],
           numBytes := 0 }

/-- `BufferedWriter.write(row)`: append the row to the buffer, then flush if
`num_bytes + row_size > max_bytes` (note that `num_bytes` already includes
the row just appended, so the row's size is effectively counted twice). -/
def BufferedWriter.write {α : Type u} (sz : α → Nat) (w : BufferedWriter α) (row : α) :
    BufferedWriter α :=
  let rowSize := sz row
  let w1 : BufferedWriter α :=
    { w with buffer := w.buffer ++ [row], numBytes := w.numBytes + rowSize }
  if w1.numBytes + rowSize > w1.maxBytes then w1.flushW else w1

/-- A sequence of `write` calls. -/
def BufferedWriter.writeAll {α : Type u} (sz : α → Nat) (w : BufferedWriter α)
    (rows : List α) : BufferedWriter α :=
  rows.foldl (BufferedWriter.write sz) w

/-! ## BufferedReader (`executor/util.py`, class `BufferedReader`)

`iter_buffer` yields the input in greedy chunks whose total approximate size
stays within `maxBytes` (a single row above the budget raises in the source;
the theorems below therefore carry the hypothesis that every row fits). -/

/-- Worker for `BufferedReader.iter_buffer`: `buffer`/`numBytes` are the
current chunk being accumulated. -/
def chunkGreedyGo {α : Type u} (sz : α → Nat) (maxBytes : Nat) :
    List α → Nat → List α → List (List α)
  | buffer, _, [] => if buffer.isEmpty then [] else [buffer]
  | buffer, numBytes, row :: rest =>
      if numBytes + sz row > maxBytes then
        buffer :: chunkGreedyGo sz maxBytes [row] (sz row) rest
      else
        chunkGreedyGo sz maxBytes (buffer ++ [row]) (numBytes + sz row) rest

/-- `BufferedReader(num_memory_blocks).iter_buffer(rows)` as the list of
yielded chunks. -/
def chunkGreedy {α : Type u} (sz : α → Nat) (maxBytes : Nat) (rows : List α) :
    List (List α) :=
  chunkGreedyGo sz maxBytes [] 0 rows

/-! ## ExtSortBuffer (`executor/util.py`, class `ExtSortBuffer`)

State: in-memory `buffer` (a plain list, or the contents of the `SortedSet`
in sorted order when deduplicating), its byte count, the
`num_blocks_flushed` counter, and the contents of the run files produced so
far (level-0 until merging starts). -/

structure ExtSortState (α : Type u) where
  buffer : List α
  numBytes : Nat
  numBlocksFlushed : Nat
  runs : List (List α)
deriving Repr, DecidableEq

/-- Freshly constructed `ExtSortBuffer` (empty buffer, nothing flushed). -/
def initExtSort (α : Type u) : ExtSortState α := ⟨[], 0, 0, []⟩

/-- The non-strict order induced by a three-way comparator. -/
def sortLe {α : Type u} (cmp : α → α → Int) : α → α → Prop :=
  fun a b => cmp a b ≤ 0

instance {α : Type u} (cmp : α → α → Int) : DecidableRel (sortLe cmp) :=
  fun a b => inferInstanceAs (Decidable (cmp a b ≤ 0))

/-- Insertion into the `SortedSet` buffer: `sortedcontainers` inserts at the
`bisect_right` position for the row's sort key, i.e. after every element
whose key is less than or equal. -/
def ssInsert {α : Type u} (cmp : α → α → Int) (x : α) : List α → List α
  | [] => [x]
  | b :: l => if cmp b x ≤ 0 then b :: ssInsert cmp x l else x :: b :: l

/-- `ExtSortBuffer._flush`: append the buffer (sorted; the `SortedSet` is
already in sorted order) as a new level-0 run, clear it, and add the whole
memory budget to `num_blocks_flushed`. -/
def ExtSortState.flushS {α : Type u} (cmp : α → α → Int) (dedup : Bool) (M : Nat)
    (s : ExtSortState α) : ExtSortState α :=
  let runRows := if dedup then s.buffer else List.insertionSort (sortLe cmp) s.buffer
  { buffer := [], numBytes := 0,
    numBlocksFlushed := s.numBlocksFlushed + M,
    runs := s.runs ++ [runRows] }

/-- `ExtSortBuffer.add(row)`: with dedup, a row already in the in-memory
buffer is dropped; otherwise the buffer is flushed first if the new row would
exceed the byte budget, and the row is then added (kept sorted when
deduplicating).  Note there is no failure path: an oversized row simply
triggers a flush and then sits alone in the buffer. -/
def ExtSortState.add {α : Type u} [DecidableEq α] (cmp : α → α → Int) (sz : α → Nat)
    (dedup : Bool) (M : Nat) (s : ExtSortState α) (row : α) : ExtSortState α :=
  if dedup ∧ row ∈ s.buffer then s
  else
    let rowSize := sz row
    let s1 := if s.numBytes + rowSize > M * BLOCK_SIZE then s.flushS cmp dedup M else s
    { s1 with buffer := if dedup then ssInsert cmp row s1.buffer else s1.buffer ++ [row],
              numBytes := s1.numBytes + rowSize }

/-- A sequence of `add` calls. -/
def ExtSortState.addAll {α : Type u} [DecidableEq α] (cmp : α → α → Int) (sz : α → Nat)
    (dedup : Bool) (M : Nat) (s : ExtSortState α) (rows : List α) : ExtSortState α :=
  rows.foldl (ExtSortState.add cmp sz dedup M) s

/-! ### The k-way merge of `ExtSortBuffer._iter_merge`

The priority queue holds one `(row, run#)` entry per non-exhausted run,
ordered by the comparator with ties broken by run number.  Dequeuing is
therefore: pick, among the heads of the non-empty runs, the one that is
minimal under the comparator, preferring the earliest run on ties. -/

/-- Index (within the list of runs) and value of the head that the priority
queue would dequeue next; `none` once all runs are exhausted. -/
def pickMin {α : Type u} (cmp : α → α → Int) : List (List α) → Option (Nat × α)
  | [] => none
  | [] :: rs => (pickMin cmp rs).map (fun p => (p.1 + 1, p.2))
  | (a :: _) :: rs =>
      match pickMin cmp rs with
      | none => some (0, a)
      | some (i, b) => if cmp b a < 0 then some (i + 1, b) else some (0, a)

/-- Advance run `i` past its head (the dequeued row's generator yields its
next row, if any). -/
def popAt {α : Type u} : List (List α) → Nat → List (List α)
  | [], _ => []
  | l :: rs, 0 => l.tail :: rs
  | l :: rs, n + 1 => l :: popAt rs n

/-- The dequeue sequence of the heap merge, fuelled (one unit of fuel per
dequeued row; `kmergeRaw` supplies exactly enough). -/
def kmergeF {α : Type u} (cmp : α → α → Int) : Nat → List (List α) → List α
  | 0, _ => []
  | fuel + 1, runs =>
      match pickMin cmp runs with
      | none => []
      | some (i, a) => a :: kmergeF cmp fuel (popAt runs i)

/-- Full dequeue sequence of `_iter_merge` (before dedup suppression). -/
def kmergeRaw {α : Type u} (cmp : α → α → Int) (runs : List (List α)) : List α :=
  kmergeF cmp ((runs.map List.length).sum) runs

/-- Rows yielded by `_iter_merge`: when deduplicating, a dequeued row equal
(`==`) to the previously dequeued row is suppressed, which collapses
consecutive duplicates only. -/
def iterMergeOut {α : Type u} [DecidableEq α] (cmp : α → α → Int) (dedup : Bool)
    (runs : List (List α)) : List α :=
  if dedup then (kmergeRaw cmp runs).destutter (· ≠ ·) else kmergeRaw cmp runs

/-- The slicing `runs[i*k : (i+1)*k]` for `i` in `range(ceil(len/k))`:
chunks of `k` consecutive runs.  (`k = 0` cannot occur at run time because
the constructor enforces at least 3 memory blocks.) -/
def chunkList {α : Type u} (k : Nat) (l : List α) : List (List α) :=
  if _h : k = 0 ∨ l.isEmpty then (if l.isEmpty then [] else [l])
  else l.take k :: chunkList k (l.drop k)
termination_by l.length
decreasing_by
  push_neg at _h
  have h1 : l ≠ [] := by
    intro hc
    exact absurd (by simp [hc] : l.isEmpty = true) (by simpa using _h.2)
  have h2 : 0 < k := Nat.pos_of_ne_zero _h.1
  have h3 : 0 < l.length := List.length_pos.mpr h1
  simp only [List.length_drop]
  omega

/-- One merge pass of `iter_and_clear`: merge each group of up to `M - 1`
runs into a new run (written through a one-block `BufferedWriter` and fully
flushed, so the new run holds exactly the merge output). -/
def mergeOnePass {α : Type u} [DecidableEq α] (cmp : α → α → Int) (dedup : Bool) (M : Nat)
    (runs : List (List α)) : List (List α) :=
  (chunkList (M - 1) runs).map (iterMergeOut cmp dedup)

/-- The merge-pass loop `while len(runs) > num_memory_blocks_final`, fuelled.
With `M ≥ 3` every pass at least halves the number of runs, so fuel equal to
the initial number of runs always suffices to reach the loop's exit
condition. -/
def mergePassesF {α : Type u} [DecidableEq α] (cmp : α → α → Int) (dedup : Bool)
    (M Mf : Nat) : Nat → List (List α) → List (List α)
  | 0, runs => runs
  | fuel + 1, runs =>
      if runs.length ≤ Mf then runs
      else mergePassesF cmp dedup M Mf fuel (mergeOnePass cmp dedup M runs)

/-- `ExtSortBuffer.iter_and_clear()` as the list of yielded rows: stream the
in-memory buffer if nothing was flushed; otherwise flush any remaining
buffer, run merge passes until at most `Mf` runs remain, and stream their
final merge. -/
def iterAndClearOut {α : Type u} [DecidableEq α] (cmp : α → α → Int) (dedup : Bool)
    (M Mf : Nat) (s : ExtSortState α) : List α :=
  if s.numBlocksFlushed = 0 then
    if dedup then s.buffer else List.insertionSort (sortLe cmp) s.buffer
  else
    let s1 := if s.buffer.isEmpty then s else s.flushS cmp dedup M
    iterMergeOut cmp dedup (mergePassesF cmp dedup M Mf s1.runs.length s1.runs)

/-- Effective final-merge budget: `num_memory_blocks_final or
num_memory_blocks` — a `None` (and also a `0`, both falsy in Python) falls
back to the full budget. -/
def effectiveFinal (M : Nat) (MfOpt : Option Nat) : Nat :=
  match MfOpt with
  | none => M
  | some m => if m = 0 then M else m

/-- `ExtSortBuffer.__init__`: raises for fewer than 3 memory blocks, or when
the effective final-merge budget is below 2; otherwise yields the fresh
state. -/
def mkExtSortBuffer (α : Type u) (M : Nat) (MfOpt : Option Nat) :
    Except String (ExtSortState α) :=
  if M ≤ 2 then
    .error "merge sort needs at least 3 memory blocks to perform a merge"
  else if effectiveFinal M MfOpt ≤ 1 then
    .error "merge sort needs at least 2 memory blocks to perform the final merge"
  else
    .ok (initExtSort α)

/-! ## MergeSortPop (`executor/mergesort.py`)

`execute()` adds every input row to an `ExtSortBuffer` (no deduplication)
and yields `iter_and_clear()`. -/

/-- `MergeSortPop.execute()` over a finite input. -/
def mergeSortExecute {α : Type u} [DecidableEq α] (cmp : α → α → Int) (sz : α → Nat)
    (M Mf : Nat) (input : List α) : List α :=
  iterAndClearOut cmp false M Mf
    (ExtSortState.addAll cmp sz false M (initExtSort α) input)

/-! ## BNLJoinPop (`executor/join/bnlj.py`)

`execute()` buffers outer (left) rows with a `BufferedReader` over the full
memory budget; for each outer buffer it streams the whole inner input, and
for each inner row applies the condition to each buffered outer row. -/

/-- `BNLJoinPop.execute()` over finite inputs (`cond` is the compiled join
condition; `none`-conditions are modelled by `fun _ _ => true`). -/
def bnljExecute {L : Type u} {R : Type v} (szL : L → Nat) (M : Nat)
    (cond : L → R → Bool) (left : List L) (right : List R) : List (L × R) :=
  (chunkGreedy szL (M * BLOCK_SIZE) left).flatMap (fun buf =>
    right.flatMap (fun r => (buf.filter (fun l => cond l r)).map (fun l => (l, r))))

/-! ## HashEqJoinPop (`executor/join/hasheqj.py`) -/

/-- The 32-bit avalanche scramble `HashEqJoinPop.hash`: the native hash is
truncated to 32 bits by `ctypes.c_uint32`, after which the three mixing
steps use Python's unbounded integers. -/
def hmix (n : Nat) : Nat :=
  let x := n % 2 ^ 32
  let x := ((x >>> 16) ^^^ x) * 0x45d9f3b
  let x := ((x >>> 16) ^^^ x) * 0x45d9f3b
  (x >>> 16) ^^^ x

/-- One partitioning pass: every old partition is split into `f` new ones;
a row goes to sub-partition `(H row / prodOld) % f` (the scrambled hash with
the previously used bits divided away), and new partition `old_i * f + j`
sits at list position `old_i * f + j`.  Rows are appended in input order, so
each partition file holds exactly the filter of its source partition. -/
def passOne {ρ : Type u} (H : ρ → Nat) (f prodOld : Nat) (parts : List (List ρ)) :
    List (List ρ) :=
  parts.flatMap (fun p =>
    (List.range f).map (fun j => p.filter (fun r => (H r / prodOld) % f == j)))

/-- Largest total byte size among a side's partitions (`max_partition_sizes`,
starting from 0). -/
def maxPartBytes {ρ : Type u} (sz : ρ → Nat) (parts : List (List ρ)) : Nat :=
  (parts.map (fun p => (p.map sz).sum)).foldr max 0

/-- The partitioning loop of `HashEqJoinPop.execute` (`while depth <
DEFAULT_HASH_MAX_DEPTH`), fuelled by the depth cap.  Pass 0 uses fanout `M`,
later passes `M - 1`.  After each pass, if the left side's largest partition
fits in `M - 1` blocks the left side becomes the build side (result `.2.2 =
0`); else if the right side's does, the right side does (`1`); otherwise
recurse.  Falling out of the loop keeps the current partitions with build
side 0. -/
def partitionLoop {L : Type u} {R : Type v} (szL : L → Nat) (szR : R → Nat)
    (HL : L → Nat) (HR : R → Nat) (M : Nat) :
    Nat → Nat → Bool → List (List L) → List (List R) →
    List (List L) × List (List R) × Nat
  | 0, _, _, pl, pr => (pl, pr, 0)
  | fuel + 1, prod, isFirst, pl, pr =>
      let f := if isFirst then M else M - 1
      let pl1 := passOne HL f prod pl
      let pr1 := passOne HR f prod pr
      if maxPartBytes szL pl1 ≤ (M - 1) * BLOCK_SIZE then (pl1, pr1, 0)
      else if maxPartBytes szR pr1 ≤ (M - 1) * BLOCK_SIZE then (pl1, pr1, 1)
      else partitionLoop szL szR HL HR M fuel (prod * f) false pl1 pr1

/-- Build/probe over one partition pair with the left side as build: load
the build rows into a multimap keyed by join values (an empty build
partition is skipped), then stream probe rows, look up their join values,
and re-check the equality condition before emitting `(build_row, probe_row)`
in the left-right output order. -/
def buildProbePairsL {L : Type u} {R : Type v} {V : Type w} [DecidableEq V]
    (jvL : L → V) (jvR : R → V) (bp : List L) (pp : List R) : List (L × R) :=
  if bp.isEmpty then []
  else pp.flatMap (fun r =>
    (bp.filter (fun b => decide (jvL b = jvR r))).map (fun b => (b, r)))

/-- Build/probe with the right side as build; output stays in left-right
order (`yield (*row, *build_row)`). -/
def buildProbePairsR {L : Type u} {R : Type v} {V : Type w} [DecidableEq V]
    (jvL : L → V) (jvR : R → V) (bp : List R) (pp : List L) : List (L × R) :=
  if bp.isEmpty then []
  else pp.flatMap (fun l =>
    (bp.filter (fun b => decide (jvR b = jvL l))).map (fun b => (l, b)))

/-- `HashEqJoinPop.execute()` over finite inputs: `jvL`/`jvR` are the
compiled join-value tuples, `pyhash` the opaque native hash on those
values. -/
def hashJoinExecute {L : Type u} {R : Type v} {V : Type w} [DecidableEq V]
    (jvL : L → V) (jvR : R → V) (pyhash : V → Nat) (szL : L → Nat) (szR : R → Nat)
    (M : Nat) (left : List L) (right : List R) : List (L × R) :=
  let res := partitionLoop szL szR (fun l => hmix (pyhash (jvL l)))
    (fun r => hmix (pyhash (jvR r))) M DEFAULT_HASH_MAX_DEPTH 1 true [left] [right]
  if res.2.2 = 0 then
    (res.1.zip res.2.1).flatMap (fun bp => buildProbePairsL jvL jvR bp.1 bp.2)
  else
    (res.2.1.zip res.1).flatMap (fun bp => buildProbePairsR jvL jvR bp.1 bp.2)

/-- All joining row pairs in left-major order, the reference output both
join algorithms are compared against. -/
def matchPairs {L : Type u} {R : Type v} {V : Type w} [DecidableEq V]
    (jvL : L → V) (jvR : R → V) (left : List L) (right : List R) : List (L × R) :=
  left.flatMap (fun l =>
    (right.filter (fun r => decide (jvL l = jvR r))).map (fun r => (l, r)))

/-- The partition of `rows` into the fibers of an index function `g`, listed
for indices `0, …, n-1` (what the partition files of one side look like
after any number of passes). -/
def fibers {ρ : Type u} (g : ρ → Nat) (n : Nat) (rows : List ρ) : List (List ρ) :=
  (List.range n).map (fun i => rows.filter (fun r => g r == i))

/-! ## AggrPop (`executor/aggr.py`), all-incremental path

When every aggregate is incrementally computable (`needed = False`), rows
are folded directly into a dictionary keyed by the STRING
`"-".join(map(str, group_values))`, remembering the original group tuple and
one accumulator state; the output yields, per dictionary entry in insertion
order, the remembered group tuple followed by the finalized states.  The
model carries one aggregate with state type `σ` (`aggAdd` composes the
aggregate's input expression with its `add`). -/

/-- Value of a group-by expression (enough of the Python value universe for
the theorems: integers and strings). -/
inductive PyVal : Type where
  | vInt (n : Int)
  | vStr (s : String)
deriving DecidableEq, Repr

/-- Python `str()` on a value. -/
def pyStr : PyVal → String
  | .vInt n => toString n
  | .vStr s => s

/-- The dictionary key `"-".join(map(str, grp))`. -/
def groupKeyString (grp : List PyVal) : String :=
  String.intercalate "-" (grp.map pyStr)

/-- One loop iteration of the all-incremental path: create the entry for the
row's string key if absent (initial state), then fold the row into that
entry's state. -/
def aggrStepIncr {ρ : Type u} {σ : Type v} (groupBy : ρ → List PyVal)
    (aggInit : σ) (aggAdd : σ → ρ → σ)
    (entries : List (String × List PyVal × σ)) (row : ρ) :
    List (String × List PyVal × σ) :=
  let grp := groupBy row
  let key := groupKeyString grp
  let entries1 :=
    if entries.any (fun e => e.1 == key) then entries
    else entries ++ [(key, grp, aggInit)]
  entries1.map (fun e => if e.1 == key then (e.1, e.2.1, aggAdd e.2.2 row) else e)

/-- `AggrPop.execute()` on the all-incremental path: fold all rows, then
yield one row per dictionary entry. -/
def aggrExecuteIncr {ρ : Type u} {σ : Type v} (groupBy : ρ → List PyVal)
    (aggInit : σ) (aggAdd : σ → ρ → σ) (aggFin : σ → PyVal) (rows : List ρ) :
    List (List PyVal) :=
  (rows.foldl (aggrStepIncr groupBy aggInit aggAdd) []).map
    (fun e => e.2.1 ++ [aggFin e.2.2])

/-- Grouped input / grouped output: collapsing maximal runs of equal values
leaves no repeats, i.e. every value occupies a single contiguous run. -/
def noInterleavedGroups {κ : Type u} [DecidableEq κ] (l : List κ) : Prop :=
  (l.destutter (· ≠ ·)).Nodup

/-! ## Planner `add_groupby_by_sorting` (`planner/util.py`)

For group-by expressions that are all direct column references
(`appended_columns == []`), the sort is skipped exactly when every group-by
column index is a MEMBER of the input's `ordered_columns` list (not
necessarily a prefix of it).  Rows are modelled as integer lists. -/

/-- Projection of a row onto a list of column indices. -/
def projCols (cols : List Nat) (row : List Int) : List Int :=
  cols.map (fun c => row.getD c 0)

/-- Lexicographic non-strict comparison of projected key lists. -/
def lexLeB : List Int → List Int → Bool
  | [], [] => true
  | [], _ :: _ => true
  | _ :: _, [] => false
  | a :: l, b :: m => if a < b then true else if b < a then false else lexLeB l m

/-- Rows are sorted by the given columns — each consecutive pair of rows is
lexicographically non-decreasing on their projections (what
`ordered_columns` guarantees about the input's output stream). -/
def sortedByCols (cols : List Nat) : List (List Int) → Bool
  | [] => true
  | [_] => true
  | r1 :: r2 :: rest =>
      lexLeB (projCols cols r1) (projCols cols r2) && sortedByCols cols (r2 :: rest)

/-- The planner's skip test: `all(column_index in input.compiled.ordered_columns
for column_index in groupby_column_indices)`. -/
def skipsGroupbySort (orderedColumns groupbyCols : List Nat) : Bool :=
  groupbyCols.all (fun c => orderedColumns.contains c)

/-- Row stream fed to `AggrPop` after `add_groupby_by_sorting` (direct
column-reference case): unchanged when the skip test passes, otherwise
sorted (stably) by the group-by columns. -/
def addGroupbySortPlan (orderedColumns groupbyCols : List Nat)
    (rows : List (List Int)) : List (List Int) :=
  if skipsGroupbySort orderedColumns groupbyCols then rows
  else
    List.insertionSort
      (fun r1 r2 => lexLeB (projCols groupbyCols r1) (projCols groupbyCols r2) = true) rows

/-! ## MergeEqJoinPop mini block-nested loop (`executor/join/mergeeqj.py`)

When the two cursors hit equal keys, `mini_bjlcj_prepare` writes the
maximal run of key-equal rows from each side through a one-block
`BufferedWriter` (flushing the remainder only if something spilled), and
`mini_bnlcj_execute` emits the cross product, reading each side either from
the writer's in-memory buffer (nothing flushed) or from its file in
one-block chunks. -/

/-- The batch gathered by `_helper` in `mini_bjlcj_prepare`: the starting
row plus all immediately following rows equal to it under the side's
join-key equality. -/
def batchOf {ρ : Type u} (eqB : ρ → ρ → Bool) (start : ρ) (rest : List ρ) : List ρ :=
  start :: rest.takeWhile (eqB start)

/-- Writer state produced by `_helper`: the batch written through a
one-block writer, with a final flush only when something already spilled. -/
def prepWriter {ρ : Type u} (sz : ρ → Nat) (batch : List ρ) : BufferedWriter ρ :=
  let w := BufferedWriter.writeAll sz (mkBufferedWriter ρ 1) batch
  if w.numBlocksFlushed > 0 then w.flushW else w

/-- `source(i)` in `mini_bnlcj_execute`: the single in-memory buffer when
nothing was flushed, else the file re-read in one-block chunks. -/
def writerChunks {ρ : Type u} (sz : ρ → Nat) (w : BufferedWriter ρ) : List (List ρ) :=
  if w.numBlocksFlushed = 0 then [w.buffer] else chunkGreedy sz BLOCK_SIZE w.fileRows

/-- `mini_bnlcj_execute(writer0, writer1)`: `reverse` holds when the left
writer flushed MORE blocks than the right one, in which case the right
(smaller) side supplies the outer buffers and the left side is streamed as
the inner; emitted pairs are always in left-right order. -/
def miniBnlcjExecute {ρ0 : Type u} {ρ1 : Type v} (sz0 : ρ0 → Nat) (sz1 : ρ1 → Nat)
    (w0 : BufferedWriter ρ0) (w1 : BufferedWriter ρ1) : List (ρ0 × ρ1) :=
  if w0.numBlocksFlushed > w1.numBlocksFlushed then
    (writerChunks sz1 w1).flatMap (fun ob =>
      (writerChunks sz0 w0).flatMap (fun ib =>
        ob.flatMap (fun y => ib.map (fun x => (x, y)))))
  else
    (writerChunks sz0 w0).flatMap (fun ob =>
      (writerChunks sz1 w1).flatMap (fun ib =>
        ob.flatMap (fun x => ib.map (fun y => (x, y)))))

/-- The mini BNL as the specification sentence describes it: the batch with
FEWER flushed blocks is used as the INNER loop (ties resolved like the
code, left outer). -/
def miniBnlSpecSmallerInner {ρ0 : Type u} {ρ1 : Type v} (sz0 : ρ0 → Nat)
    (sz1 : ρ1 → Nat) (w0 : BufferedWriter ρ0) (w1 : BufferedWriter ρ1) :
    List (ρ0 × ρ1) :=
  if w0.numBlocksFlushed > w1.numBlocksFlushed then
    (writerChunks sz0 w0).flatMap (fun ob =>
      (writerChunks sz1 w1).flatMap (fun ib =>
        ob.flatMap (fun x => ib.map (fun y => (x, y)))))
  else
    (writerChunks sz1 w1).flatMap (fun ob =>
      (writerChunks sz0 w0).flatMap (fun ib =>
        ob.flatMap (fun y => ib.map (fun x => (x, y)))))

/-- The mini BNL with the batch with fewer flushed blocks as the OUTER loop
(what the amended claim states; ties resolved left outer). -/
def miniBnlSmallerOuter {ρ0 : Type u} {ρ1 : Type v} (sz0 : ρ0 → Nat)
    (sz1 : ρ1 → Nat) (w0 : BufferedWriter ρ0) (w1 : BufferedWriter ρ1) :
    List (ρ0 × ρ1) :=
  if w0.numBlocksFlushed > w1.numBlocksFlushed then
    (writerChunks sz1 w1).flatMap (fun ob =>
      (writerChunks sz0 w0).flatMap (fun ib =>
        ob.flatMap (fun y => ib.map (fun x => (x, y)))))
  else
    (writerChunks sz0 w0).flatMap (fun ob =>
      (writerChunks sz1 w1).flatMap (fun ib =>
        ob.flatMap (fun x => ib.map (fun y => (x, y)))))

/-! ## IndexScanPop (`executor/indexscan.py`), B+tree branch

A B+tree file is its sorted list of `(key, row)` entries.  `iter_get(k)`
yields all entries with key `k`; `iter_scan(lo)` yields all entries with
key ≥ `lo` (all entries when `lo` is `None`), in file order. -/

/-- `BplusTree.iter_get(k)`. -/
def bptIterGet {K : Type u} {ρ : Type v} [DecidableEq K] (k : K)
    (entries : List (K × ρ)) : List (K × ρ) :=
  entries.filter (fun e => decide (e.1 = k))

/-- `BplusTree.iter_scan(key_lower)`. -/
def bptScanFrom {K : Type u} {ρ : Type v} [LinearOrder K] (kl : Option K)
    (entries : List (K × ρ)) : List (K × ρ) :=
  match kl with
  | none => entries
  | some lo => entries.filter (fun e => decide (lo ≤ e.1))

/-- The `continue` test of the scan loop: `key_lower is not None and
lower_exclusive and key <= key_lower`. -/
def lowSkip {K : Type u} [LinearOrder K] (kl : Option K) (lex : Bool) (k : K) : Bool :=
  match kl with
  | some lo => lex && decide (k ≤ lo)
  | none => false

/-- The `break` test of the scan loop: `key_upper is not None and (key >
key_upper or (upper_exclusive and key >= key_upper))`. -/
def upStop {K : Type u} [LinearOrder K] (ku : Option K) (uex : Bool) (k : K) : Bool :=
  match ku with
  | some hi => decide (hi < k) || (uex && decide (hi ≤ k))
  | none => false

/-- The scan loop of `IndexScanPop.execute`: `continue` past entries at or
below an exclusive lower bound, `break` once an entry passes the upper
bound. -/
def rangeLoop {K : Type u} {ρ : Type v} [LinearOrder K] (kl ku : Option K)
    (lex uex : Bool) : List (K × ρ) → List (K × ρ)
  | [] => []
  | e :: rest =>
      if lowSkip kl lex e.1 then rangeLoop kl ku lex uex rest
      else if upStop ku uex e.1 then []
      else e :: rangeLoop kl ku lex uex rest

/-- `IndexScanPop.execute()` on a B+tree: a point lookup via `iter_get`
when `key_lower == key_upper` and not `None` (whatever the exclusivity
flags), otherwise the bounded scan. -/
def indexScanExecute {K : Type u} {ρ : Type v} [LinearOrder K] (kl ku : Option K)
    (lex uex : Bool) (entries : List (K × ρ)) : List (K × ρ) :=
  match kl, ku with
  | some lo, some hi =>
      if lo = hi then bptIterGet lo entries
      else rangeLoop (some lo) (some hi) lex uex (bptScanFrom (some lo) entries)
  | klo, kuo => rangeLoop klo kuo lex uex (bptScanFrom klo entries)

/-- Bound predicate the range scan is expected to implement: above the lower
bound (strictly, when exclusive) and below the upper bound (strictly, when
exclusive); missing bounds always pass. -/
def inRangeB {K : Type u} [LinearOrder K] (kl ku : Option K) (lex uex : Bool)
    (k : K) : Bool :=
  (match kl with
   | none => true
   | some lo => if lex then decide (lo < k) else decide (lo ≤ k)) &&
  (match ku with
   | none => true
   | some hi => if uex then decide (k < hi) else decide (k ≤ hi))

/-- Modelled from the spec sentence for C8, for comparison against
`indexScanExecute`: equal non-null bounds are a point lookup returning
exactly the entries with that key (whatever the flags); otherwise the scan
returns exactly the entries inside the (in)exclusive bounds. -/
def indexScanSpec {K : Type u} {ρ : Type v} [LinearOrder K] (kl ku : Option K)
    (lex uex : Bool) (entries : List (K × ρ)) : List (K × ρ) :=
  match kl, ku with
  | some lo, some hi =>
      if lo = hi then entries.filter (fun e => decide (e.1 = lo))
      else entries.filter (fun e => inRangeB (some lo) (some hi) lex uex e.1)
  | klo, kuo => entries.filter (fun e => inRangeB klo kuo lex uex e.1)

/-! ## MaterializePop (`executor/materialize.py`), non-blocking

The first `execute()` writes each input row to the cache writer and yields
it.  If the consumer closes the generator after `k` rows (with input rows
remaining), exactly `k` rows were written and the trailing `flush` never
ran.  Every later `execute()` serves the cache only: the spilled file when
anything was flushed, else the in-memory buffer. -/

/-- Writer state left behind by a first non-blocking pass closed after `k`
of the input rows. -/
def matFirstPass {ρ : Type u} (sz : ρ → Nat) (numBlocks : Nat) (input : List ρ)
    (k : Nat) : BufferedWriter ρ :=
  BufferedWriter.writeAll sz (mkBufferedWriter ρ numBlocks) (input.take k)

/-- Rows yielded by any subsequent `execute()` call. -/
def matSubsequent {ρ : Type u} (w : BufferedWriter ρ) : List ρ :=
  if w.numBlocksFlushed > 0 then w.fileRows else w.buffer

/-- Comparator used by the concrete sort witnesses: three-way comparison of
`Fin 2` values, exactly what the compiled comparator produces for a single
ascending integer sort column. -/
def cmpF2 (a b : Fin 2) : Int :=
  if a < b then -1 else if a = b then 0 else 1

/-- Comparator on pairs that only inspects the first component — the shape
of the comparator `AggrPop` builds for a per-group `ExtSortBuffer`, where
rows equal on the aggregate's input column may still differ elsewhere. -/
def cmpFst (a b : Nat × Nat) : Int :=
  if a.1 < b.1 then -1 else if b.1 < a.1 then 1 else 0

instance {κ : Type u} [DecidableEq κ] (l : List κ) :
    Decidable (noInterleavedGroups l) :=
  inferInstanceAs (Decidable (List.Nodup _))

/-! # Proofs -/

/-! ## BufferedWriter lemmas -/

theorem write_maxBytes {α : Type u} (sz : α → Nat) (w : BufferedWriter α) (row : α) :
    (w.write sz row).maxBytes = w.maxBytes := by
  simp only [BufferedWriter.write, BufferedWriter.flushW]
  split <;> rfl

theorem writeAll_maxBytes {α : Type u} (sz : α → Nat) (rows : List α) :
    ∀ w : BufferedWriter α, (w.writeAll sz rows).maxBytes = w.maxBytes := by
  induction rows with
  | nil => intro w; rfl
  | cons r rest ih =>
      intro w
      simp only [BufferedWriter.writeAll, List.foldl_cons] at *
      rw [ih, write_maxBytes]

theorem write_split {α : Type u} (sz : α → Nat) (w : BufferedWriter α) (row : α) :
    (w.write sz row).fileRows ++ (w.write sz row).buffer =
      w.fileRows ++ w.buffer ++ [row] := by
  simp only [BufferedWriter.write, BufferedWriter.flushW]
  split <;> simp

theorem writeAll_split {α : Type u} (sz : α → Nat) (rows : List α) :
    ∀ w : BufferedWriter α,
      (w.writeAll sz rows).fileRows ++ (w.writeAll sz rows).buffer =
        w.fileRows ++ w.buffer ++ rows := by
  induction rows with
  | nil => intro w; simp [BufferedWriter.writeAll]
  | cons r rest ih =>
      intro w
      simp only [BufferedWriter.writeAll, List.foldl_cons] at *
      rw [ih, write_split]
      simp

theorem write_flushed_cases {α : Type u} (sz : α → Nat) (w : BufferedWriter α) (row : α) :
    ((w.write sz row).numBlocksFlushed = w.numBlocksFlushed ∧
      (w.write sz row).fileRows = w.fileRows ∧
      (w.write sz row).buffer = w.buffer ++ [row]) ∨
    w.numBlocksFlushed < (w.write sz row).numBlocksFlushed := by
  simp only [BufferedWriter.write, BufferedWriter.flushW]
  split
  · right; simp
  · left; simp

theorem writeAll_flushed_mono {α : Type u} (sz : α → Nat) (rows : List α) :
    ∀ w : BufferedWriter α,
      w.numBlocksFlushed ≤ (w.writeAll sz rows).numBlocksFlushed := by
  induction rows with
  | nil => intro w; simp [BufferedWriter.writeAll]
  | cons r rest ih =>
      intro w
      simp only [BufferedWriter.writeAll, List.foldl_cons] at *
      refine le_trans ?_ (ih (w.write sz r))
      rcases write_flushed_cases sz w r with ⟨h, _, _⟩ | h
      · exact h.ge
      · exact h.le

theorem writeAll_no_flush {α : Type u} (sz : α → Nat) (rows : List α) :
    ∀ w : BufferedWriter α,
      (w.writeAll sz rows).numBlocksFlushed = w.numBlocksFlushed →
      (w.writeAll sz rows).fileRows = w.fileRows ∧
      (w.writeAll sz rows).buffer = w.buffer ++ rows := by
  induction rows with
  | nil => intro w _; simp [BufferedWriter.writeAll]
  | cons r rest ih =>
      intro w h
      simp only [BufferedWriter.writeAll, List.foldl_cons] at *
      rcases write_flushed_cases sz w r with ⟨h1, h2, h3⟩ | h1
      · have := ih (w.write sz r) (by rw [h, h1])
        rw [h2, h3] at this
        simpa using this
      · exact absurd h (by
          have := writeAll_flushed_mono sz rest (w.write sz r)
          simp only [BufferedWriter.writeAll] at this
          omega)

theorem writeAll_no_flush_of_bounds {α : Type u} (sz : α → Nat) :
    ∀ (rows : List α) (w : BufferedWriter α),
      (∀ p r s, rows = p ++ r :: s →
        w.numBytes + (p.map sz).sum + sz r + sz r ≤ w.maxBytes) →
      w.writeAll sz rows =
        { w with buffer := w.buffer ++ rows,
                 numBytes := w.numBytes + (rows.map sz).sum } := by
  intro rows
  induction rows with
  | nil => intro w _; simp [BufferedWriter.writeAll]
  | cons r rest ih =>
      intro w h
      have hr : w.numBytes + sz r + sz r ≤ w.maxBytes := by
        have := h [] r rest rfl
        simpa using this
      have hw : w.write sz r =
          { w with buffer := w.buffer ++ [r], numBytes := w.numBytes + sz r } := by
        simp only [BufferedWriter.write]
        rw [if_neg (by omega)]
      simp only [BufferedWriter.writeAll, List.foldl_cons]
      rw [hw]
      have := ih { w with buffer := w.buffer ++ [r], numBytes := w.numBytes + sz r }
        (by
          intro p r' s hps
          have := h (r :: p) r' s (by rw [hps]; rfl)
          simpa [Nat.add_assoc] using this)
      simp only [BufferedWriter.writeAll] at this
      rw [this]
      simp [Nat.add_assoc]

/-- C9 counterexample: a single 3000-byte row against a one-block (4028
byte) budget stays within the budget (3000 ≤ 4028), yet `write` flushes
because it counts the row's size twice (3000 + 3000 > 4028): the claim that
a within-budget write sequence leaves `num_blocks_flushed == 0` and the
heap file untouched fails. -/
theorem bufferedwriter_flushes_within_budget :
    (([(0 : Nat)].map (fun _ => 3000)).sum ≤ 1 * BLOCK_SIZE) ∧
    (BufferedWriter.writeAll (fun _ : Nat => 3000) (mkBufferedWriter Nat 1)
      [0]).numBlocksFlushed = 1 ∧
    (BufferedWriter.writeAll (fun _ : Nat => 3000) (mkBufferedWriter Nat 1)
      [0]).fileRows = [0] := by
  refine ⟨by decide, by decide, by decide⟩

/-- C9 (amended): `write` flushes exactly when the buffered bytes plus the
size of the row just appended, counted once more, exceed the budget; so a
write sequence in which every prefix's total size plus its last row's size
stays within `n_blocks * BLOCK_SIZE` leaves `num_blocks_flushed == 0`, the
in-memory buffer holding exactly the written rows in order, and the heap
file never appended to. -/
theorem bufferedwriter_no_flush_within_margin {α : Type u} (sz : α → Nat)
    (nb : Nat) (rows : List α)
    (h : ∀ p r s, rows = p ++ r :: s →
      (p.map sz).sum + sz r + sz r ≤ nb * BLOCK_SIZE) :
    (BufferedWriter.writeAll sz (mkBufferedWriter α nb) rows).numBlocksFlushed = 0 ∧
    (BufferedWriter.writeAll sz (mkBufferedWriter α nb) rows).buffer = rows ∧
    (BufferedWriter.writeAll sz (mkBufferedWriter α nb) rows).fileRows = [] := by
  have := writeAll_no_flush_of_bounds sz rows (mkBufferedWriter α nb)
    (by intro p r s hps; simpa [mkBufferedWriter] using h p r s hps)
  rw [this]
  simp [mkBufferedWriter]

/-- Witness for the amended C9 theorem at a concrete input: two rows of 1000
bytes against a one-block budget. -/
theorem bufferedwriter_no_flush_within_margin_witness :
    (BufferedWriter.writeAll (fun _ : Nat => 1000) (mkBufferedWriter Nat 1)
      [7, 8]).numBlocksFlushed = 0 ∧
    (BufferedWriter.writeAll (fun _ : Nat => 1000) (mkBufferedWriter Nat 1)
      [7, 8]).buffer = [7, 8] ∧
    (BufferedWriter.writeAll (fun _ : Nat => 1000) (mkBufferedWriter Nat 1)
      [7, 8]).fileRows = [] :=
  bufferedwriter_no_flush_within_margin (fun _ : Nat => 1000) 1 [7, 8] (by
    intro p r s hps
    have hlen : p.length ≤ 1 := by
      have := congrArg List.length hps
      simp at this
      omega
    rcases p with _ | ⟨a, _ | ⟨b, t⟩⟩
    · norm_num [BLOCK_SIZE]
    · norm_num [BLOCK_SIZE]
    · simp at hlen)

/-- C10: after a non-blocking first `execute()` whose generator is closed
after `k` rows (input not exhausted), every subsequent `execute()` serves
only the cache written during that partial pass: it emits a prefix of the
first `k` input rows (the flushed rows when the cache spilled), and exactly
those `k` rows when nothing spilled; the remaining input is never
recomputed. -/
theorem materialize_partial_first_pass_serves_cache {ρ : Type u} (sz : ρ → Nat)
    (nb : Nat) (input : List ρ) (k : Nat) (_hk : k < input.length) :
    (∃ n, matSubsequent (matFirstPass sz nb input k) = (input.take k).take n) ∧
    ((matFirstPass sz nb input k).numBlocksFlushed = 0 →
      matSubsequent (matFirstPass sz nb input k) = input.take k) := by
  have hsplit : (matFirstPass sz nb input k).fileRows ++
      (matFirstPass sz nb input k).buffer = input.take k := by
    simpa [matFirstPass, mkBufferedWriter] using
      writeAll_split sz (input.take k) (mkBufferedWriter ρ nb)
  have hbuf : (matFirstPass sz nb input k).numBlocksFlushed = 0 →
      (matFirstPass sz nb input k).buffer = input.take k := by
    intro hf0
    have hnf := writeAll_no_flush sz (input.take k) (mkBufferedWriter ρ nb)
      (by simpa [matFirstPass, mkBufferedWriter] using hf0)
    simpa [matFirstPass, mkBufferedWriter] using hnf.2
  constructor
  · by_cases hf : (matFirstPass sz nb input k).numBlocksFlushed > 0
    · refine ⟨(matFirstPass sz nb input k).fileRows.length, ?_⟩
      have hsub : matSubsequent (matFirstPass sz nb input k) =
          (matFirstPass sz nb input k).fileRows := by
        simp [matSubsequent, hf]
      rw [hsub, ← hsplit]
      exact (List.take_left _ _).symm
    · have hf0 : (matFirstPass sz nb input k).numBlocksFlushed = 0 := by omega
      refine ⟨k, ?_⟩
      have hsub : matSubsequent (matFirstPass sz nb input k) =
          (matFirstPass sz nb input k).buffer := by
        simp [matSubsequent, hf0]
      rw [hsub, hbuf hf0, List.take_take, min_self]
  · intro hf0
    have hsub : matSubsequent (matFirstPass sz nb input k) =
        (matFirstPass sz nb input k).buffer := by
      simp [matSubsequent, hf0]
    rw [hsub, hbuf hf0]

/-- Witness for the C10 theorem: four rows, generator closed after three;
with 3000-byte rows the cache spills and later passes serve the flushed
file; the theorem applies at `k = 3 < 4`. -/
theorem materialize_partial_first_pass_serves_cache_witness :
    (∃ n, matSubsequent (matFirstPass (fun _ : Nat => 3000) 1 [1, 2, 3, 4] 3) =
      (([1, 2, 3, 4] : List Nat).take 3).take n) ∧
    ((matFirstPass (fun _ : Nat => 3000) 1 [1, 2, 3, 4] 3).numBlocksFlushed = 0 →
      matSubsequent (matFirstPass (fun _ : Nat => 3000) 1 [1, 2, 3, 4] 3) =
        ([1, 2, 3, 4] : List Nat).take 3) :=
  materialize_partial_first_pass_serves_cache (fun _ : Nat => 3000) 1 [1, 2, 3, 4] 3
    (by decide)

/-! ## ExtSortBuffer content lemmas -/

theorem add_perm_nodedup {α : Type u} [DecidableEq α] (cmp : α → α → Int) (sz : α → Nat)
    (M : Nat) (s : ExtSortState α) (row : α) :
    List.Perm
      ((s.add cmp sz false M row).runs.flatten ++ (s.add cmp sz false M row).buffer)
      (s.runs.flatten ++ s.buffer ++ [row]) := by
  rw [ExtSortState.add]
  simp only [Bool.false_eq_true, false_and, if_false]
  split
  · next h =>
      simp only [ExtSortState.flushS, Bool.false_eq_true, if_false, List.flatten_append,
        List.flatten_cons, List.flatten_nil, List.append_nil, List.nil_append]
      have hs : List.Perm (List.insertionSort (sortLe cmp) s.buffer) s.buffer :=
        List.perm_insertionSort _ _
      exact (hs.append_left s.runs.flatten).append_right [row]
  · rw [← List.append_assoc]

theorem addAll_perm_nodedup {α : Type u} [DecidableEq α] (cmp : α → α → Int)
    (sz : α → Nat) (M : Nat) (rows : List α) :
    ∀ s : ExtSortState α,
      List.Perm
        ((s.addAll cmp sz false M rows).runs.flatten ++ (s.addAll cmp sz false M rows).buffer)
        (s.runs.flatten ++ s.buffer ++ rows) := by
  induction rows with
  | nil => intro s; simp [ExtSortState.addAll]
  | cons r rest ih =>
      intro s
      have h1 : s.addAll cmp sz false M (r :: rest) =
          (s.add cmp sz false M r).addAll cmp sz false M rest := rfl
      rw [h1]
      refine (ih (s.add cmp sz false M r)).trans ?_
      have := (add_perm_nodedup cmp sz M s r).append_right rest
      simpa [List.append_assoc] using this

/-- C5 counterexample: the claim says a final-merge budget below 2 is
fatal, but an explicit `num_memory_blocks_final = 0` is falsy in Python and
silently falls back to the full budget: construction succeeds. -/
theorem extsort_zero_final_budget_accepted :
    mkExtSortBuffer (List Int) 3 (some 0) = .ok (initExtSort (List Int)) ∧
    (0 : Nat) < 2 :=
  ⟨rfl, by decide⟩

/-- C5 (amended): `ExtSortBuffer` construction fails exactly when `M < 3`
or the EFFECTIVE final-merge budget (`num_memory_blocks_final or
num_memory_blocks`, so `None` and `0` fall back to `M`) is below 2; and
`add` has no failure path at all — every added row, however large its byte
size, is retained (oversized rows merely force a flush), as witnessed by
the buffered content staying a permutation of the rows added. -/
theorem extsort_failure_modes {α : Type u} [DecidableEq α] (M : Nat)
    (MfOpt : Option Nat) :
    ((∃ e, mkExtSortBuffer α M MfOpt = .error e) ↔
      M ≤ 2 ∨ effectiveFinal M MfOpt ≤ 1) ∧
    ∀ (cmp : α → α → Int) (sz : α → Nat) (rows : List α),
      List.Perm
        ((ExtSortState.addAll cmp sz false M (initExtSort α) rows).runs.flatten ++
          (ExtSortState.addAll cmp sz false M (initExtSort α) rows).buffer)
        rows := by
  constructor
  · unfold mkExtSortBuffer
    split
    · next h => exact ⟨fun _ => Or.inl h, fun _ => ⟨_, rfl⟩⟩
    · next h =>
        split
        · next h2 => exact ⟨fun _ => Or.inr h2, fun _ => ⟨_, rfl⟩⟩
        · next h2 =>
            constructor
            · rintro ⟨e, he⟩
              simp at he
            · rintro (h3 | h3) <;> omega
  · intro cmp sz rows
    simpa [initExtSort] using addAll_perm_nodedup cmp sz M rows (initExtSort α)

/-- C3: evaluating the all-incremental aggregation path on two single-row
groups with VARCHAR group values `("1", "2-3")` and `("1-2", "3")` (a
grouped input: each group-by tuple occupies one contiguous run, and the two
tuples are distinct) produces ONE output row, not two: both tuples collide
on the dictionary key string `"1-2-3"`, so their groups are merged (here
under a `COUNT` aggregate, which reports 2). -/
theorem aggr_string_group_key_collision :
    aggrExecuteIncr (ρ := List PyVal) id (0 : Int) (fun s _ => s + 1)
        (fun s => .vInt s)
        [[.vStr "1", .vStr "2-3"], [.vStr "1-2", .vStr "3"]] =
      [[.vStr "1", .vStr "2-3", .vInt 2]] ∧
    ([PyVal.vStr "1", PyVal.vStr "2-3"] ≠ [PyVal.vStr "1-2", PyVal.vStr "3"]) ∧
    noInterleavedGroups
      [[PyVal.vStr "1", PyVal.vStr "2-3"], [PyVal.vStr "1-2", PyVal.vStr "3"]] :=
  ⟨by decide, by decide, by decide⟩

/-- C4: with `deduplicate=True`, three adds of rows `(1,0)`, `(1,1)`,
`(1,0)` — equal on the sort column, the first and third equal outright —
each large enough (7000 bytes against the 3-block budget) to spill the
previous buffer, leave one row per run; the merge dequeues `(1,0)`, `(1,1)`,
`(1,0)` (ties broken by run number) and the previous-row dedup check fails
to suppress the second `(1,0)`: `iter_and_clear` yields two rows equal
under `==`. -/
theorem extsort_dedup_emits_equal_rows :
    iterAndClearOut cmpFst true 3 3
        (ExtSortState.addAll cmpFst (fun _ => 7000) true 3 (initExtSort (Nat × Nat))
          [(1, 0), (1, 1), (1, 0)]) = [(1, 0), (1, 1), (1, 0)] ∧
    ¬ ([((1 : Nat), (0 : Nat)), (1, 1), (1, 0)] : List (Nat × Nat)).Nodup :=
  ⟨by decide, by decide⟩

/-- C6: on an input plan whose rows are ordered by columns `(0, 1)` with
GROUP BY on column `1` alone, the planner's membership test
(`1 ∈ ordered_columns`) passes and no sort is added, yet the rows
`[1,1], [1,2], [2,1], [2,2]` reaching the aggregation operator have the
group value `1` (and `2`) in two non-contiguous runs: the claimed
contiguity guarantee fails for orderings that merely CONTAIN the group-by
columns in non-leading positions. -/
theorem groupby_sort_skipped_for_nonleading_column :
    addGroupbySortPlan [0, 1] [1] [[1, 1], [1, 2], [2, 1], [2, 2]] =
      [[1, 1], [1, 2], [2, 1], [2, 2]] ∧
    sortedByCols [0, 1] [[1, 1], [1, 2], [2, 1], [2, 2]] ∧
    ¬ noInterleavedGroups ([[1, 1], [1, 2], [2, 1], [2, 2]].map (projCols [1])) :=
  ⟨by decide, by decide, by decide⟩

/-! ## IndexScanPop lemmas -/

theorem filter_filter_of_imp {α : Type u} (p q : α → Bool)
    (h : ∀ a, p a = true → q a = true) (l : List α) :
    (l.filter q).filter p = l.filter p := by
  induction l with
  | nil => rfl
  | cons a t ih =>
      by_cases hq : q a = true
      · rw [List.filter_cons_of_pos hq, List.filter_cons, List.filter_cons]
        rw [ih]
      · have hp : p a = false := by
          cases hpa : p a
          · rfl
          · exact absurd (h a hpa) hq
        rw [List.filter_cons_of_neg (by simp [hq]), List.filter_cons_of_neg (by simp [hp]),
          ih]

theorem lower_bound_bool {K : Type u} [LinearOrder K] (lo k : K) (lex : Bool)
    (hlo : lo ≤ k) :
    (if lex then decide (lo < k) else decide (lo ≤ k)) =
      !(lex && decide (k ≤ lo)) := by
  cases lex
  · simp [hlo]
  · by_cases h : lo < k
    · simp [h, not_le.mpr h]
    · have h2 : k ≤ lo := not_lt.mp h
      simp [h, h2]

theorem upper_bound_bool {K : Type u} [LinearOrder K] (hi k : K) (uex : Bool) :
    (if uex then decide (k < hi) else decide (k ≤ hi)) =
      !(decide (hi < k) || (uex && decide (hi ≤ k))) := by
  cases uex
  · by_cases h : hi < k
    · simp [h, not_le.mpr h]
    · simp [h, not_lt.mp h]
  · by_cases h : k < hi
    · simp [h, not_lt.mpr h.le, not_le.mpr h]
    · simp [h, not_lt.mp h]

/-- On keys at or above the lower bound, passing the range test is the same
as passing neither the `continue` nor the `break` test. -/
theorem inRangeB_eq_not_skips {K : Type u} [LinearOrder K] (kl ku : Option K)
    (lex uex : Bool) (k : K) (hlo : ∀ lo, kl = some lo → lo ≤ k) :
    inRangeB kl ku lex uex k = (!(lowSkip kl lex k) && !(upStop ku uex k)) := by
  rcases kl with _ | lo <;> rcases ku with _ | hi
  · simp [inRangeB, lowSkip, upStop]
  · simp only [inRangeB, lowSkip, upStop, Bool.true_and, Bool.not_false]
    rw [upper_bound_bool]
  · simp only [inRangeB, lowSkip, upStop, Bool.and_true, Bool.not_false]
    rw [lower_bound_bool lo k lex (hlo lo rfl)]
  · simp only [inRangeB, lowSkip, upStop]
    rw [lower_bound_bool lo k lex (hlo lo rfl), upper_bound_bool]

theorem rangeLoop_eq_filter {K : Type u} {ρ : Type v} [LinearOrder K]
    (kl ku : Option K) (lex uex : Bool) :
    ∀ l : List (K × ρ), l.Pairwise (fun a b => a.1 ≤ b.1) →
      (∀ e ∈ l, ∀ lo, kl = some lo → lo ≤ e.1) →
      rangeLoop kl ku lex uex l =
        l.filter (fun e => inRangeB kl ku lex uex e.1) := by
  intro l
  induction l with
  | nil => intro _ _; rfl
  | cons e rest ih =>
      intro hsort hlo
      have hbridge := inRangeB_eq_not_skips kl ku lex uex e.1
        (fun lo h => hlo e (List.mem_cons_self e rest) lo h)
      rw [rangeLoop]
      by_cases h1 : lowSkip kl lex e.1 = true
      · rw [if_pos h1, List.filter_cons_of_neg (by simp [hbridge, h1])]
        exact ih hsort.of_cons
          (fun e' he' lo hkl => hlo e' (List.mem_cons_of_mem _ he') lo hkl)
      · by_cases h2 : upStop ku uex e.1 = true
        · rw [if_neg h1, if_pos h2]
          symm
          rw [List.filter_eq_nil_iff]
          intro a ha
          rcases List.mem_cons.mp ha with rfl | ha'
          · simp [hbridge, h2]
          · have hka : e.1 ≤ a.1 := List.rel_of_pairwise_cons hsort ha'
            have h2a : upStop ku uex a.1 = true := by
              rcases ku with _ | hi
              · simp [upStop] at h2
              · simp only [upStop, Bool.or_eq_true, Bool.and_eq_true,
                  decide_eq_true_eq] at h2 ⊢
                rcases h2 with h2 | ⟨hu, h2⟩
                · exact Or.inl (lt_of_lt_of_le h2 hka)
                · exact Or.inr ⟨hu, le_trans h2 hka⟩
            have := inRangeB_eq_not_skips kl ku lex uex a.1
              (fun lo h => hlo a (List.mem_cons_of_mem _ ha') lo h)
            simp [this, h2a]
        · rw [if_neg h1, if_neg h2,
            List.filter_cons_of_pos (by simp [hbridge, h1, h2]),
            ih hsort.of_cons
              (fun e' he' lo hkl => hlo e' (List.mem_cons_of_mem _ he') lo hkl)]

/-- C8: with bounds set via `set_key`/`set_range` on a B+tree-backed index
scan, equal non-null bounds give a point lookup returning exactly the
entries with that key regardless of the exclusivity flags; otherwise the
scan returns exactly the entries strictly above an exclusive (resp. at or
above an inclusive) lower bound and strictly below an exclusive (resp. at
or below an inclusive) upper bound — entries at the lower bound are skipped
when exclusive, and the early `break` at the upper bound drops nothing that
the bounds admit. -/
theorem indexscan_point_and_range {K : Type u} {ρ : Type v} [LinearOrder K]
    (kl ku : Option K) (lex uex : Bool) (entries : List (K × ρ))
    (hsorted : entries.Pairwise (fun a b => a.1 ≤ b.1)) :
    indexScanExecute kl ku lex uex entries = indexScanSpec kl ku lex uex entries := by
  have hcollapse : ∀ (lo : K) (kuo : Option K),
      rangeLoop (some lo) kuo lex uex (bptScanFrom (some lo) entries) =
        entries.filter (fun e => inRangeB (some lo) kuo lex uex e.1) := by
    intro lo kuo
    have hsf : bptScanFrom (some lo) entries =
        entries.filter (fun e => decide (lo ≤ e.1)) := rfl
    rw [hsf, rangeLoop_eq_filter (some lo) kuo lex uex _
      (hsorted.filter _)
      (by
        intro e he lo' hkl
        injection hkl with hkl'
        subst hkl'
        exact of_decide_eq_true (List.mem_filter.mp he).2)]
    exact filter_filter_of_imp _ _
      (by
        intro a ha
        simp only [inRangeB, Bool.and_eq_true] at ha
        rcases lex with _ | _
        · simpa using ha.1
        · have := of_decide_eq_true (by simpa using ha.1 : decide (lo < a.1) = true)
          simp [le_of_lt this]) entries
  rcases kl with _ | lo <;> rcases ku with _ | hi
  · exact rangeLoop_eq_filter none none lex uex entries hsorted (by simp)
  · exact rangeLoop_eq_filter none (some hi) lex uex entries hsorted (by simp)
  · exact hcollapse lo none
  · by_cases hpoint : lo = hi
    · simp [indexScanExecute, indexScanSpec, hpoint, bptIterGet]
    · simp only [indexScanExecute, indexScanSpec, if_neg hpoint]
      exact hcollapse lo (some hi)

/-- Witness for the C8 theorem: a sorted four-entry index, range `(1, 3)`
with both bounds exclusive, hypotheses discharged by computation. -/
theorem indexscan_point_and_range_witness :
    indexScanExecute (K := Int) (ρ := Int) (some 1) (some 3) true true
        [(1, 10), (2, 20), (2, 21), (3, 30)] =
      indexScanSpec (some 1) (some 3) true true [(1, 10), (2, 20), (2, 21), (3, 30)] :=
  indexscan_point_and_range (some 1) (some 3) true true
    [(1, 10), (2, 20), (2, 21), (3, 30)] (by decide)

/-! ## BufferedReader / mini-BNL lemmas -/

theorem chunkGreedyGo_flatten {α : Type u} (sz : α → Nat) (maxBytes : Nat) :
    ∀ (rows buffer : List α) (numBytes : Nat),
      (chunkGreedyGo sz maxBytes buffer numBytes rows).flatten = buffer ++ rows := by
  intro rows
  induction rows with
  | nil =>
      intro buffer numBytes
      rw [chunkGreedyGo]
      by_cases hb : buffer.isEmpty
      · rw [if_pos hb]
        simp [List.isEmpty_iff.mp hb]
      · rw [if_neg hb]
        simp
  | cons r rest ih =>
      intro buffer numBytes
      rw [chunkGreedyGo]
      split
      · simp [ih]
      · simp [ih]

theorem chunkGreedy_flatten {α : Type u} (sz : α → Nat) (maxBytes : Nat)
    (rows : List α) : (chunkGreedy sz maxBytes rows).flatten = rows := by
  simpa using chunkGreedyGo_flatten sz maxBytes rows [] 0

/-- The chunks served by `source(i)` in `mini_bnlcj_execute` concatenate
back to exactly the batch the writer was fed. -/
theorem writerChunks_prepWriter_flatten {ρ : Type u} (sz : ρ → Nat) (batch : List ρ) :
    (writerChunks sz (prepWriter sz batch)).flatten = batch := by
  have hsplit : (BufferedWriter.writeAll sz (mkBufferedWriter ρ 1) batch).fileRows ++
      (BufferedWriter.writeAll sz (mkBufferedWriter ρ 1) batch).buffer = batch := by
    simpa [mkBufferedWriter] using writeAll_split sz batch (mkBufferedWriter ρ 1)
  unfold prepWriter writerChunks
  by_cases hf : (BufferedWriter.writeAll sz (mkBufferedWriter ρ 1) batch).numBlocksFlushed > 0
  · rw [if_pos hf]
    simp only [BufferedWriter.flushW]
    rw [if_neg (by omega), chunkGreedy_flatten]
    exact hsplit
  · rw [if_neg hf]
    have hf0 : (BufferedWriter.writeAll sz (mkBufferedWriter ρ 1) batch).numBlocksFlushed
        = 0 := by omega
    rw [if_pos hf0]
    have h2 := (writeAll_no_flush sz batch (mkBufferedWriter ρ 1)
      (by simpa [mkBufferedWriter] using hf0)).2
    simp only [mkBufferedWriter] at h2 ⊢
    simp only [List.nil_append, one_mul] at h2
    simp [h2]

theorem coe_bind_coe {γ : Type u} (As : List (List γ)) :
    ((↑As : Multiset (List γ)).bind (fun a => (↑a : Multiset γ))) =
      (↑As.flatten : Multiset γ) := by
  induction As with
  | nil => simp
  | cons a As ih =>
      rw [← Multiset.cons_coe, Multiset.cons_bind, ih, Multiset.coe_add]
      simp

/-- Iterating buffers-of-buffers in any nesting emits, up to order, the
cross product of the concatenated contents. -/
theorem bind_chunks_cross {γ0 : Type u} {γ1 : Type v} {δ : Type w}
    (As : List (List γ0)) (Bs : List (List γ1)) (f : γ0 → γ1 → δ) :
    List.Perm
      (As.flatMap (fun a => Bs.flatMap (fun b => a.flatMap (fun x => b.map (f x)))))
      (As.flatten.flatMap (fun x => Bs.flatten.map (f x))) := by
  rw [← Multiset.coe_eq_coe]
  rw [← Multiset.coe_bind, ← Multiset.coe_bind]
  have step1 : ∀ a : List γ0,
      ((↑(Bs.flatMap (fun b => a.flatMap (fun x => b.map (f x))))) : Multiset δ) =
        (↑a : Multiset γ0).bind (fun x => Multiset.map (f x) (↑Bs.flatten : Multiset γ1)) := by
    intro a
    rw [← Multiset.coe_bind]
    have hinner : ∀ b : List γ1,
        ((↑(a.flatMap (fun x => b.map (f x)))) : Multiset δ) =
          (↑a : Multiset γ0).bind (fun x => Multiset.map (f x) (↑b : Multiset γ1)) := by
      intro b
      rw [← Multiset.coe_bind]
      simp only [Multiset.map_coe]
    rw [Multiset.bind_congr (fun b _ => hinner b), Multiset.bind_bind]
    refine Multiset.bind_congr (fun x _ => ?_)
    rw [← Multiset.map_bind, coe_bind_coe]
  rw [Multiset.bind_congr (fun a _ => step1 a), ← Multiset.bind_assoc, coe_bind_coe]
  rfl

/-- Swapping the major/minor iteration order of a two-level loop preserves
the multiset of emitted values. -/
theorem flatMap_map_comm_perm {γ0 : Type u} {γ1 : Type v} {δ : Type w}
    (A : List γ0) (B : List γ1) (f : γ0 → γ1 → δ) :
    List.Perm (A.flatMap (fun x => B.map (f x)))
      (B.flatMap (fun y => A.map (fun x => f x y))) := by
  rw [← Multiset.coe_eq_coe, ← Multiset.coe_bind, ← Multiset.coe_bind]
  simp only [← Multiset.map_coe]
  exact Multiset.bind_map_comm _ _

/-- The mini BNL emits exactly the cross product of the two batches, as a
multiset, whichever side spilled or is iterated outer. -/
theorem miniBnlcj_perm_product {ρ0 : Type u} {ρ1 : Type v} (sz0 : ρ0 → Nat)
    (sz1 : ρ1 → Nat) (b0 : List ρ0) (b1 : List ρ1) :
    List.Perm
      (miniBnlcjExecute sz0 sz1 (prepWriter sz0 b0) (prepWriter sz1 b1))
      (b0.flatMap (fun x => b1.map (fun y => (x, y)))) := by
  have hc0 := writerChunks_prepWriter_flatten sz0 b0
  have hc1 := writerChunks_prepWriter_flatten sz1 b1
  unfold miniBnlcjExecute
  split
  · refine ((bind_chunks_cross _ _ (fun y x => (x, y))).trans ?_)
    rw [hc0, hc1]
    exact flatMap_map_comm_perm b1 b0 (fun y x => (x, y))
  · refine ((bind_chunks_cross _ _ (fun x y => (x, y))).trans ?_)
    rw [hc0, hc1]

/-- C7 counterexample: a spilled left batch of three 3000-byte rows (4
flushed blocks) against a right batch of two (3 flushed blocks): the rows
actually emitted stream the LARGER left batch as the inner loop — the
output order differs from the iteration the claim describes, which uses
the smaller batch (fewer flushed blocks) as the inner loop. -/
theorem mini_bnl_inner_is_larger_side :
    miniBnlcjExecute (fun _ : Nat => 3000) (fun _ : Nat => 3000)
        (prepWriter (fun _ => 3000) [10, 11, 12]) (prepWriter (fun _ => 3000) [20, 21]) ≠
      miniBnlSpecSmallerInner (fun _ : Nat => 3000) (fun _ : Nat => 3000)
        (prepWriter (fun _ => 3000) [10, 11, 12]) (prepWriter (fun _ => 3000) [20, 21]) ∧
    (prepWriter (fun _ : Nat => 3000) [10, 11, 12]).numBlocksFlushed >
      (prepWriter (fun _ : Nat => 3000) [20, 21]).numBlocksFlushed :=
  ⟨by decide, by decide⟩

/-- C7 (amended): when the cursors reach equal keys, the mini BNL over the
two prepared batches (each the maximal run of consecutive key-equal rows
from its side) emits exactly the cross product of the batches — each
combined pair exactly once, i.e. the output is a permutation of the
product — and the batch with FEWER flushed blocks is used as the OUTER
loop (the larger batch is streamed as the inner). -/
theorem mergeeqj_batch_cross_product {ρ0 : Type u} {ρ1 : Type v} (sz0 : ρ0 → Nat)
    (sz1 : ρ1 → Nat) (eq0 : ρ0 → ρ0 → Bool) (eq1 : ρ1 → ρ1 → Bool)
    (start0 : ρ0) (rest0 : List ρ0) (start1 : ρ1) (rest1 : List ρ1)
    (_h0 : ∀ r ∈ batchOf eq0 start0 rest0, sz0 r ≤ BLOCK_SIZE)
    (_h1 : ∀ r ∈ batchOf eq1 start1 rest1, sz1 r ≤ BLOCK_SIZE) :
    List.Perm
      (miniBnlcjExecute sz0 sz1 (prepWriter sz0 (batchOf eq0 start0 rest0))
        (prepWriter sz1 (batchOf eq1 start1 rest1)))
      ((batchOf eq0 start0 rest0).flatMap
        (fun x => (batchOf eq1 start1 rest1).map (fun y => (x, y)))) ∧
    miniBnlcjExecute sz0 sz1 (prepWriter sz0 (batchOf eq0 start0 rest0))
        (prepWriter sz1 (batchOf eq1 start1 rest1)) =
      miniBnlSmallerOuter sz0 sz1 (prepWriter sz0 (batchOf eq0 start0 rest0))
        (prepWriter sz1 (batchOf eq1 start1 rest1)) :=
  ⟨miniBnlcj_perm_product sz0 sz1 _ _, rfl⟩

/-- Witness for the amended C7 theorem: singleton-key batches of small rows
(the size hypotheses hold by computation). -/
theorem mergeeqj_batch_cross_product_witness :
    List.Perm
      (miniBnlcjExecute (fun _ : Nat => 100) (fun _ : Nat => 100)
        (prepWriter (fun _ => 100) (batchOf (fun _ _ => true) 1 [2]))
        (prepWriter (fun _ => 100) (batchOf (fun _ _ => false) 5 [6])))
      ((batchOf (fun _ _ => true) 1 [2]).flatMap
        (fun x => (batchOf (fun _ _ => false) 5 [6]).map (fun y => (x, y)))) ∧
    miniBnlcjExecute (fun _ : Nat => 100) (fun _ : Nat => 100)
        (prepWriter (fun _ => 100) (batchOf (fun _ _ => true) 1 [2]))
        (prepWriter (fun _ => 100) (batchOf (fun _ _ => false) 5 [6])) =
      miniBnlSmallerOuter (fun _ : Nat => 100) (fun _ : Nat => 100)
        (prepWriter (fun _ => 100) (batchOf (fun _ _ => true) 1 [2]))
        (prepWriter (fun _ => 100) (batchOf (fun _ _ => false) 5 [6])) :=
  mergeeqj_batch_cross_product (fun _ => 100) (fun _ => 100) (fun _ _ => true)
    (fun _ _ => false) 1 [2] 5 [6] (by decide) (by decide)

/-! ## k-way merge lemmas -/

theorem pickMin_get {α : Type u} (cmp : α → α → Int) :
    ∀ (runs : List (List α)) (i : Nat) (a : α),
      pickMin cmp runs = some (i, a) → ∃ t, runs[i]? = some (a :: t) := by
  intro runs
  induction runs with
  | nil => intro i a h; simp [pickMin] at h
  | cons l rs ih =>
      intro i a h
      cases l with
      | nil =>
          rw [pickMin] at h
          cases hrec : pickMin cmp rs with
          | none => rw [hrec] at h; simp at h
          | some p =>
              obtain ⟨j, b⟩ := p
              rw [hrec] at h
              simp only [Option.map_some', Option.some.injEq, Prod.mk.injEq] at h
              obtain ⟨t, ht⟩ := ih j b hrec
              exact ⟨t, by rw [← h.1, ← h.2]; simpa using ht⟩
      | cons x l' =>
          rw [pickMin] at h
          split at h
          · simp only [Option.some.injEq, Prod.mk.injEq] at h
            exact ⟨l', by rw [← h.1, ← h.2]; simp⟩
          · rename_i j b heq
            split at h
            · simp only [Option.some.injEq, Prod.mk.injEq] at h
              obtain ⟨t, ht⟩ := ih j b heq
              exact ⟨t, by rw [← h.1, ← h.2]; simpa using ht⟩
            · simp only [Option.some.injEq, Prod.mk.injEq] at h
              exact ⟨l', by rw [← h.1, ← h.2]; simp⟩

theorem pickMin_none {α : Type u} (cmp : α → α → Int) :
    ∀ runs : List (List α), pickMin cmp runs = none → runs.flatten = [] := by
  intro runs
  induction runs with
  | nil => intro _; rfl
  | cons l rs ih =>
      intro h
      cases l with
      | nil =>
          rw [pickMin] at h
          rw [Option.map_eq_none'] at h
          simp [ih h]
      | cons x l' =>
          rw [pickMin] at h
          split at h
          · simp at h
          · split at h <;> simp at h

theorem cmp_self_eq_zero {α : Type u} (cmp : α → α → Int)
    (hflip : ∀ a b, cmp b a = -cmp a b) (a : α) : cmp a a = 0 := by
  have := hflip a a
  omega

theorem pickMin_le {α : Type u} (cmp : α → α → Int)
    (hflip : ∀ a b, cmp b a = -cmp a b)
    (htrans : ∀ a b c, cmp a b ≤ 0 → cmp b c ≤ 0 → cmp a c ≤ 0) :
    ∀ (runs : List (List α)) (i : Nat) (a : α),
      pickMin cmp runs = some (i, a) →
      ∀ (j : Nat) (b : α) (t : List α), runs[j]? = some (b :: t) → cmp a b ≤ 0 := by
  intro runs
  induction runs with
  | nil => intro i a h; simp [pickMin] at h
  | cons l rs ih =>
      intro i a h j b t hj
      cases l with
      | nil =>
          rw [pickMin] at h
          cases hrec : pickMin cmp rs with
          | none => rw [hrec] at h; simp at h
          | some p =>
              obtain ⟨pi, pb⟩ := p
              rw [hrec] at h
              simp only [Option.map_some', Option.some.injEq, Prod.mk.injEq] at h
              cases j with
              | zero => simp at hj
              | succ j' =>
                  rw [← h.2]
                  exact ih pi pb hrec j' b t (by simpa using hj)
      | cons x l' =>
          rw [pickMin] at h
          split at h
          · rename_i heq
            have hflat := pickMin_none cmp rs heq
            simp only [Option.some.injEq, Prod.mk.injEq] at h
            cases j with
            | zero =>
                simp only [List.getElem?_cons_zero, Option.some.injEq] at hj
                injection hj with hxb _
                rw [← h.2, ← hxb]
                exact le_of_eq (cmp_self_eq_zero cmp hflip x)
            | succ j' =>
                exfalso
                have hmem : (b :: t) ∈ rs := by
                  have hj' : rs[j']? = some (b :: t) := by simpa using hj
                  exact List.getElem?_mem hj'
                have := List.flatten_eq_nil_iff.mp hflat _ hmem
                simp at this
          · rename_i pi pb heq
            split at h
            · rename_i hc
              simp only [Option.some.injEq, Prod.mk.injEq] at h
              cases j with
              | zero =>
                  simp only [List.getElem?_cons_zero, Option.some.injEq] at hj
                  injection hj with hxb _
                  rw [← h.2, ← hxb]
                  exact le_of_lt hc
              | succ j' =>
                  rw [← h.2]
                  exact ih pi pb heq j' b t (by simpa using hj)
            · rename_i hc
              simp only [Option.some.injEq, Prod.mk.injEq] at h
              have hxpb : cmp x pb ≤ 0 := by
                have := hflip pb x
                omega
              cases j with
              | zero =>
                  simp only [List.getElem?_cons_zero, Option.some.injEq] at hj
                  injection hj with hxb _
                  rw [← h.2, ← hxb]
                  exact le_of_eq (cmp_self_eq_zero cmp hflip x)
              | succ j' =>
                  rw [← h.2]
                  exact htrans x pb b hxpb (ih pi pb heq j' b t (by simpa using hj))

theorem popAt_flatten_perm {α : Type u} :
    ∀ (runs : List (List α)) (i : Nat) (a : α) (t : List α),
      runs[i]? = some (a :: t) →
      List.Perm runs.flatten (a :: (popAt runs i).flatten) := by
  intro runs
  induction runs with
  | nil => intro i a t h; simp at h
  | cons l rs ih =>
      intro i a t h
      cases i with
      | zero =>
          simp only [List.getElem?_cons_zero, Option.some.injEq] at h
          subst h
          simp [popAt]
      | succ i' =>
          have h' : rs[i']? = some (a :: t) := by simpa using h
          simp only [popAt, List.flatten_cons]
          exact ((ih i' a t h').append_left l).trans List.perm_middle

theorem popAt_length_sum {α : Type u} :
    ∀ (runs : List (List α)) (i : Nat) (a : α) (t : List α),
      runs[i]? = some (a :: t) →
      ((popAt runs i).map List.length).sum + 1 = (runs.map List.length).sum := by
  intro runs
  induction runs with
  | nil => intro i a t h; simp at h
  | cons l rs ih =>
      intro i a t h
      cases i with
      | zero =>
          simp only [List.getElem?_cons_zero, Option.some.injEq] at h
          subst h
          simp [popAt]
          omega
      | succ i' =>
          have h' : rs[i']? = some (a :: t) := by simpa using h
          simp only [popAt, List.map_cons, List.sum_cons]
          have := ih i' a t h'
          omega

theorem popAt_sorted {α : Type u} {P : α → α → Prop} :
    ∀ (runs : List (List α)) (i : Nat),
      (∀ l ∈ runs, List.Pairwise P l) → ∀ l ∈ popAt runs i, List.Pairwise P l := by
  intro runs
  induction runs with
  | nil => intro i h l hl; simp [popAt] at hl
  | cons r rs ih =>
      intro i h l hl
      cases i with
      | zero =>
          rcases List.mem_cons.mp hl with rfl | hl'
          · cases r with
            | nil => exact List.Pairwise.nil
            | cons x r' => exact (h _ (List.mem_cons_self _ _)).of_cons
          · exact h l (List.mem_cons_of_mem _ hl')
      | succ i' =>
          rcases List.mem_cons.mp hl with rfl | hl'
          · exact h l (List.mem_cons_self _ _)
          · exact ih i' (fun l' hl'' => h l' (List.mem_cons_of_mem _ hl'')) l hl'

theorem kmergeF_perm {α : Type u} (cmp : α → α → Int) :
    ∀ (fuel : Nat) (runs : List (List α)),
      (runs.map List.length).sum ≤ fuel →
      List.Perm (kmergeF cmp fuel runs) runs.flatten := by
  intro fuel
  induction fuel with
  | zero =>
      intro runs h
      have hlen : runs.flatten.length = 0 := by
        rw [List.length_flatten]
        omega
      rw [List.length_eq_zero] at hlen
      simp [kmergeF, hlen]
  | succ n ih =>
      intro runs h
      rw [kmergeF]
      cases hp : pickMin cmp runs with
      | none => simp [pickMin_none cmp runs hp]
      | some p =>
          obtain ⟨i, a⟩ := p
          obtain ⟨t, ht⟩ := pickMin_get cmp runs i a hp
          have hsum := popAt_length_sum runs i a t ht
          have hle : ((popAt runs i).map List.length).sum ≤ n := by omega
          exact ((ih (popAt runs i) hle).cons a).trans (popAt_flatten_perm runs i a t ht).symm

theorem pickMin_le_flatten {α : Type u} (cmp : α → α → Int)
    (hflip : ∀ a b, cmp b a = -cmp a b)
    (htrans : ∀ a b c, cmp a b ≤ 0 → cmp b c ≤ 0 → cmp a c ≤ 0)
    (runs : List (List α)) (i : Nat) (a : α)
    (hp : pickMin cmp runs = some (i, a))
    (hsorted : ∀ l ∈ runs, List.Pairwise (sortLe cmp) l) :
    ∀ x ∈ runs.flatten, cmp a x ≤ 0 := by
  intro x hx
  rw [List.mem_flatten] at hx
  obtain ⟨l, hl, hxl⟩ := hx
  obtain ⟨j, hj⟩ := List.getElem?_of_mem hl
  cases l with
  | nil => simp at hxl
  | cons b t =>
      have hab := pickMin_le cmp hflip htrans runs i a hp j b t hj
      rcases List.mem_cons.mp hxl with rfl | hxt
      · exact hab
      · have hbx : sortLe cmp b x := List.rel_of_pairwise_cons (hsorted _ hl) hxt
        exact htrans a b x hab hbx

theorem kmergeF_sorted {α : Type u} (cmp : α → α → Int)
    (hflip : ∀ a b, cmp b a = -cmp a b)
    (htrans : ∀ a b c, cmp a b ≤ 0 → cmp b c ≤ 0 → cmp a c ≤ 0) :
    ∀ (fuel : Nat) (runs : List (List α)),
      (runs.map List.length).sum ≤ fuel →
      (∀ l ∈ runs, List.Pairwise (sortLe cmp) l) →
      List.Pairwise (sortLe cmp) (kmergeF cmp fuel runs) := by
  intro fuel
  induction fuel with
  | zero => intro runs _ _; simp [kmergeF]
  | succ n ih =>
      intro runs h hsorted
      rw [kmergeF]
      cases hp : pickMin cmp runs with
      | none => simp
      | some p =>
          obtain ⟨i, a⟩ := p
          obtain ⟨t, ht⟩ := pickMin_get cmp runs i a hp
          have hsum := popAt_length_sum runs i a t ht
          have hle : ((popAt runs i).map List.length).sum ≤ n := by omega
          refine List.pairwise_cons.mpr ⟨?_, ih (popAt runs i) hle (popAt_sorted runs i hsorted)⟩
          intro b hb
          have hbmem : b ∈ (popAt runs i).flatten :=
            ((kmergeF_perm cmp n (popAt runs i) hle).mem_iff).mp hb
          have hbruns : b ∈ runs.flatten :=
            (popAt_flatten_perm runs i a t ht).symm.subset (List.mem_cons_of_mem _ hbmem)
          exact pickMin_le_flatten cmp hflip htrans runs i a hp hsorted b hbruns

/-! ## Merge-pass and sort-operator lemmas -/

theorem chunkList_flatten {β : Type u} (k : Nat) (l : List β) :
    (chunkList k l).flatten = l := by
  rw [chunkList]
  split
  · split
    · next h2 => simp [List.isEmpty_iff.mp h2]
    · simp
  · next h =>
      simp only [List.flatten_cons]
      rw [chunkList_flatten k (l.drop k)]
      exact List.take_append_drop k l
termination_by l.length
decreasing_by
  rename_i h
  push_neg at h
  have h1 : l ≠ [] := by
    intro hc
    exact absurd (by simp [hc] : l.isEmpty = true) (by simpa using h.2)
  have h2 : 0 < k := Nat.pos_of_ne_zero h.1
  have h3 : 0 < l.length := List.length_pos.mpr h1
  simp only [List.length_drop]
  omega

theorem chunkList_mem {β : Type u} (k : Nat) (l : List β) :
    ∀ c ∈ chunkList k l, ∀ x ∈ c, x ∈ l := by
  rw [chunkList]
  split
  · split
    · simp
    · intro c hc x hx
      rcases List.mem_singleton.mp hc with rfl
      exact hx
  · next h =>
      intro c hc x hx
      rcases List.mem_cons.mp hc with rfl | hc'
      · exact List.take_subset k l hx
      · exact List.drop_subset k l (chunkList_mem k (l.drop k) c hc' x hx)
termination_by l.length
decreasing_by
  rename_i h
  push_neg at h
  have h1 : l ≠ [] := by
    intro hc
    exact absurd (by simp [hc] : l.isEmpty = true) (by simpa using h.2)
  have h2 : 0 < k := Nat.pos_of_ne_zero h.1
  have h3 : 0 < l.length := List.length_pos.mpr h1
  simp only [List.length_drop]
  omega

theorem kmergeRaw_perm {α : Type u} (cmp : α → α → Int) (runs : List (List α)) :
    List.Perm (kmergeRaw cmp runs) runs.flatten :=
  kmergeF_perm cmp _ runs le_rfl

theorem kmergeRaw_sorted {α : Type u} (cmp : α → α → Int)
    (hflip : ∀ a b, cmp b a = -cmp a b)
    (htrans : ∀ a b c, cmp a b ≤ 0 → cmp b c ≤ 0 → cmp a c ≤ 0)
    (runs : List (List α)) (hsorted : ∀ l ∈ runs, List.Pairwise (sortLe cmp) l) :
    List.Pairwise (sortLe cmp) (kmergeRaw cmp runs) :=
  kmergeF_sorted cmp hflip htrans _ runs le_rfl hsorted

theorem mergeOnePass_flatten_perm {α : Type u} [DecidableEq α] (cmp : α → α → Int)
    (M : Nat) (runs : List (List α)) :
    List.Perm (mergeOnePass cmp false M runs).flatten runs.flatten := by
  unfold mergeOnePass
  have hgen : ∀ chunks : List (List (List α)),
      List.Perm ((chunks.map (iterMergeOut cmp false)).flatten) chunks.flatten.flatten := by
    intro chunks
    induction chunks with
    | nil => simp
    | cons c cs ih =>
        simp only [List.map_cons, List.flatten_cons, List.flatten_append]
        have hmerge : List.Perm (iterMergeOut cmp false c) c.flatten := by
          simpa [iterMergeOut] using kmergeRaw_perm cmp c
        exact hmerge.append ih
  exact (hgen (chunkList (M - 1) runs)).trans (by rw [chunkList_flatten])

theorem mergeOnePass_sorted {α : Type u} [DecidableEq α] (cmp : α → α → Int)
    (hflip : ∀ a b, cmp b a = -cmp a b)
    (htrans : ∀ a b c, cmp a b ≤ 0 → cmp b c ≤ 0 → cmp a c ≤ 0)
    (M : Nat) (runs : List (List α))
    (hsorted : ∀ l ∈ runs, List.Pairwise (sortLe cmp) l) :
    ∀ l ∈ mergeOnePass cmp false M runs, List.Pairwise (sortLe cmp) l := by
  intro l hl
  unfold mergeOnePass at hl
  obtain ⟨c, hc, rfl⟩ := List.mem_map.mp hl
  have : List.Pairwise (sortLe cmp) (kmergeRaw cmp c) :=
    kmergeRaw_sorted cmp hflip htrans c
      (fun l' hl' => hsorted l' (chunkList_mem (M - 1) runs c hc l' hl'))
  simpa [iterMergeOut] using this

theorem mergePassesF_flatten_perm {α : Type u} [DecidableEq α] (cmp : α → α → Int)
    (M Mf : Nat) :
    ∀ (fuel : Nat) (runs : List (List α)),
      List.Perm (mergePassesF cmp false M Mf fuel runs).flatten runs.flatten := by
  intro fuel
  induction fuel with
  | zero => intro runs; exact List.Perm.refl _
  | succ n ih =>
      intro runs
      rw [mergePassesF]
      split
      · exact List.Perm.refl _
      · exact (ih (mergeOnePass cmp false M runs)).trans
          (mergeOnePass_flatten_perm cmp M runs)

theorem mergePassesF_sorted {α : Type u} [DecidableEq α] (cmp : α → α → Int)
    (hflip : ∀ a b, cmp b a = -cmp a b)
    (htrans : ∀ a b c, cmp a b ≤ 0 → cmp b c ≤ 0 → cmp a c ≤ 0)
    (M Mf : Nat) :
    ∀ (fuel : Nat) (runs : List (List α)),
      (∀ l ∈ runs, List.Pairwise (sortLe cmp) l) →
      ∀ l ∈ mergePassesF cmp false M Mf fuel runs, List.Pairwise (sortLe cmp) l := by
  intro fuel
  induction fuel with
  | zero => intro runs h; exact h
  | succ n ih =>
      intro runs h
      rw [mergePassesF]
      split
      · exact h
      · exact ih (mergeOnePass cmp false M runs)
          (mergeOnePass_sorted cmp hflip htrans M runs h)

theorem insertionSort_sorted_cmp {α : Type u} (cmp : α → α → Int)
    (hflip : ∀ a b, cmp b a = -cmp a b)
    (htrans : ∀ a b c, cmp a b ≤ 0 → cmp b c ≤ 0 → cmp a c ≤ 0) (l : List α) :
    List.Pairwise (sortLe cmp) (List.insertionSort (sortLe cmp) l) := by
  haveI : IsTotal α (sortLe cmp) := ⟨by
    intro a b
    by_cases h : cmp a b ≤ 0
    · exact Or.inl h
    · refine Or.inr ?_
      unfold sortLe at *
      have := hflip a b
      omega⟩
  haveI : IsTrans α (sortLe cmp) := ⟨fun a b c => htrans a b c⟩
  exact List.sorted_insertionSort (sortLe cmp) l

theorem add_runs_sorted {α : Type u} [DecidableEq α] (cmp : α → α → Int)
    (hflip : ∀ a b, cmp b a = -cmp a b)
    (htrans : ∀ a b c, cmp a b ≤ 0 → cmp b c ≤ 0 → cmp a c ≤ 0)
    (sz : α → Nat) (M : Nat) (s : ExtSortState α) (row : α)
    (h : ∀ l ∈ s.runs, List.Pairwise (sortLe cmp) l) :
    ∀ l ∈ (s.add cmp sz false M row).runs, List.Pairwise (sortLe cmp) l := by
  rw [ExtSortState.add]
  simp only [Bool.false_eq_true, false_and, if_false]
  split
  · intro l hl
    simp only [ExtSortState.flushS, Bool.false_eq_true, if_false] at hl
    rcases List.mem_append.mp hl with hl' | hl'
    · exact h l hl'
    · rcases List.mem_singleton.mp hl' with rfl
      exact insertionSort_sorted_cmp cmp hflip htrans s.buffer
  · exact h

theorem addAll_runs_sorted {α : Type u} [DecidableEq α] (cmp : α → α → Int)
    (hflip : ∀ a b, cmp b a = -cmp a b)
    (htrans : ∀ a b c, cmp a b ≤ 0 → cmp b c ≤ 0 → cmp a c ≤ 0)
    (sz : α → Nat) (M : Nat) (rows : List α) :
    ∀ s : ExtSortState α,
      (∀ l ∈ s.runs, List.Pairwise (sortLe cmp) l) →
      ∀ l ∈ (s.addAll cmp sz false M rows).runs, List.Pairwise (sortLe cmp) l := by
  induction rows with
  | nil => intro s h; exact h
  | cons r rest ih =>
      intro s h
      exact ih (s.add cmp sz false M r) (add_runs_sorted cmp hflip htrans sz M s r h)

theorem addAll_flushed_zero_runs {α : Type u} [DecidableEq α] (cmp : α → α → Int)
    (sz : α → Nat) (M : Nat) (hM : 1 ≤ M) (rows : List α) :
    ∀ s : ExtSortState α,
      (s.numBlocksFlushed = 0 → s.runs = []) →
      (s.addAll cmp sz false M rows).numBlocksFlushed = 0 →
      (s.addAll cmp sz false M rows).runs = [] := by
  induction rows with
  | nil => intro s h; exact h
  | cons r rest ih =>
      intro s h
      refine ih (s.add cmp sz false M r) ?_
      rw [ExtSortState.add]
      simp only [Bool.false_eq_true, false_and, if_false]
      split
      · intro hz
        simp only [ExtSortState.flushS] at hz
        omega
      · exact h

/-- C1: for every finite input and every lawful three-way comparator (one
whose sign flips with its arguments and whose non-strict order is
transitive — exactly what `MergeSortPop` compiles from the sort
expressions), the sort operator emits a permutation of its input (same
multiset, cardinality preserved) and every pair of consecutive emitted
rows compares at most 0, for any memory budgets accepted by the
constructor (`M ≥ 3`, effective final budget ≥ 2), hence regardless of how
many runs were spilled or how many merge passes ran. -/
theorem mergesort_emits_sorted_permutation {α : Type u} [DecidableEq α]
    (cmp : α → α → Int) (sz : α → Nat) (M Mf : Nat)
    (hflip : ∀ a b, cmp b a = -cmp a b)
    (htrans : ∀ a b c, cmp a b ≤ 0 → cmp b c ≤ 0 → cmp a c ≤ 0)
    (hM : 3 ≤ M) (_hMf : 2 ≤ Mf) (input : List α) :
    List.Perm (mergeSortExecute cmp sz M Mf input) input ∧
    List.Chain' (fun a b => cmp a b ≤ 0) (mergeSortExecute cmp sz M Mf input) := by
  have hperm0 : List.Perm
      ((ExtSortState.addAll cmp sz false M (initExtSort α) input).runs.flatten ++
        (ExtSortState.addAll cmp sz false M (initExtSort α) input).buffer) input := by
    simpa [initExtSort] using addAll_perm_nodedup cmp sz M input (initExtSort α)
  have hsorted0 : ∀ l ∈ (ExtSortState.addAll cmp sz false M (initExtSort α) input).runs,
      List.Pairwise (sortLe cmp) l :=
    addAll_runs_sorted cmp hflip htrans sz M input (initExtSort α)
      (by simp [initExtSort])
  unfold mergeSortExecute iterAndClearOut
  set s := ExtSortState.addAll cmp sz false M (initExtSort α) input with hs
  by_cases hz : s.numBlocksFlushed = 0
  · rw [if_pos hz]
    simp only [Bool.false_eq_true, if_false]
    have hruns : s.runs = [] :=
      addAll_flushed_zero_runs cmp sz M (by omega) input (initExtSort α)
        (by simp [initExtSort]) hz
    constructor
    · refine (List.perm_insertionSort _ _).trans ?_
      simpa [hruns] using hperm0
    · exact (insertionSort_sorted_cmp cmp hflip htrans s.buffer).chain'
  · rw [if_neg hz]
    have h1perm : List.Perm
        ((if s.buffer.isEmpty then s else s.flushS cmp false M).runs.flatten) input := by
      split
      · next hbe =>
          have : s.buffer = [] := List.isEmpty_iff.mp hbe
          simpa [this] using hperm0
      · simp only [ExtSortState.flushS, Bool.false_eq_true, if_false,
          List.flatten_append, List.flatten_cons, List.flatten_nil, List.append_nil]
        refine List.Perm.trans ?_ hperm0
        exact (List.perm_insertionSort _ _).append_left s.runs.flatten
    have h1sorted : ∀ l ∈ (if s.buffer.isEmpty then s else s.flushS cmp false M).runs,
        List.Pairwise (sortLe cmp) l := by
      split
      · exact hsorted0
      · intro l hl
        simp only [ExtSortState.flushS, Bool.false_eq_true, if_false] at hl
        rcases List.mem_append.mp hl with hl' | hl'
        · exact hsorted0 l hl'
        · rcases List.mem_singleton.mp hl' with rfl
          exact insertionSort_sorted_cmp cmp hflip htrans s.buffer
    set s1 := if s.buffer.isEmpty then s else s.flushS cmp false M with hs1
    set runs2 := mergePassesF cmp false M Mf s1.runs.length s1.runs with hruns2
    have h2perm : List.Perm runs2.flatten s1.runs.flatten :=
      mergePassesF_flatten_perm cmp M Mf s1.runs.length s1.runs
    have h2sorted : ∀ l ∈ runs2, List.Pairwise (sortLe cmp) l :=
      mergePassesF_sorted cmp hflip htrans M Mf s1.runs.length s1.runs h1sorted
    constructor
    · refine List.Perm.trans ?_ (h2perm.trans h1perm)
      simpa [iterMergeOut] using kmergeRaw_perm cmp runs2
    · have := kmergeRaw_sorted cmp hflip htrans runs2 h2sorted
      simpa [iterMergeOut] using this.chain'

/-- Witness for the C1 theorem: the comparator on `Fin 2` that a single
ascending sort column compiles to, applied to a concrete input. -/
theorem mergesort_emits_sorted_permutation_witness :
    List.Perm (mergeSortExecute cmpF2 (fun _ => 1) 3 2 [1, 0, 1]) [1, 0, 1] ∧
    List.Chain' (fun a b : Fin 2 => cmpF2 a b ≤ 0)
      (mergeSortExecute cmpF2 (fun _ => 1) 3 2 [1, 0, 1]) :=
  mergesort_emits_sorted_permutation cmpF2 (fun _ => 1) 3 2 (by decide) (by decide)
    (by decide) (by decide) [1, 0, 1]

/-! ## Hash-join partitioning lemmas -/

theorem mul_add_eq_mul_add_iff (f a b i j : Nat) (hb : b < f) (hj : j < f) :
    a * f + b = i * f + j ↔ a = i ∧ b = j := by
  constructor
  · intro h
    have hf : 0 < f := by omega
    have ha : a = i := by
      have h1 : (a * f + b) / f = a := by
        rw [Nat.mul_comm a f, Nat.mul_add_div hf, Nat.div_eq_of_lt hb]
        omega
      have h2 : (i * f + j) / f = i := by
        rw [Nat.mul_comm i f, Nat.mul_add_div hf, Nat.div_eq_of_lt hj]
        omega
      rw [← h1, h, h2]
    subst ha
    omega
  · rintro ⟨rfl, rfl⟩
    rfl

theorem range_mul_flatMap {δ : Type u} (f : Nat) (G : Nat → δ) :
    ∀ n : Nat, (List.range (n * f)).map G =
      (List.range n).flatMap (fun i => (List.range f).map (fun j => G (i * f + j))) := by
  intro n
  induction n with
  | zero => simp
  | succ m ih =>
      rw [Nat.succ_mul, List.range_add, List.map_append, ih, List.range_succ,
        List.flatMap_append]
      simp [List.map_map, Function.comp]

theorem fibers_one {ρ : Type u} (rows : List ρ) :
    fibers (fun _ => 0) 1 rows = [rows] := by
  simp [fibers, List.range_succ]

theorem passOne_fibers {ρ : Type u} (H : ρ → Nat) (f prod n : Nat) (hf : 0 < f)
    (g : ρ → Nat) (rows : List ρ) (_hg : ∀ r, g r < n) :
    passOne H f prod (fibers g n rows) =
      fibers (fun r => g r * f + (H r / prod) % f) (n * f) rows := by
  unfold passOne fibers
  rw [List.flatMap_map, range_mul_flatMap f _ n]
  apply List.flatMap_congr
  intro i _
  apply List.map_congr_left
  intro j hj
  rw [List.filter_filter]
  apply List.filter_congr
  intro r _
  have hmod : (H r / prod) % f < f := Nat.mod_lt _ hf
  have hiff := mul_add_eq_mul_add_iff f (g r) ((H r / prod) % f) i j hmod
    (List.mem_range.mp hj)
  rw [Bool.eq_iff_iff]
  simp only [Bool.and_eq_true, beq_iff_eq]
  constructor
  · rintro ⟨h1, h2⟩
    exact hiff.mpr ⟨h2, h1⟩
  · intro h
    exact ⟨(hiff.mp h).2, (hiff.mp h).1⟩

theorem partitionLoop_fibers {L : Type u} {R : Type v} {V : Type w}
    (szL : L → Nat) (szR : R → Nat) (jvL : L → V) (jvR : R → V) (Hv : V → Nat)
    (M : Nat) (hM : 2 ≤ M) (left : List L) (right : List R) :
    ∀ (fuel prod : Nat) (isFirst : Bool) (φ : V → Nat),
      (∀ v, φ v < prod) →
      ∃ (ψ : V → Nat) (N side : Nat),
        (∀ v, ψ v < N) ∧
        partitionLoop szL szR (fun l => Hv (jvL l)) (fun r => Hv (jvR r)) M fuel prod
            isFirst (fibers (fun l => φ (jvL l)) prod left)
            (fibers (fun r => φ (jvR r)) prod right) =
          (fibers (fun l => ψ (jvL l)) N left, fibers (fun r => ψ (jvR r)) N right,
            side) := by
  intro fuel
  induction fuel with
  | zero =>
      intro prod isFirst φ hφ
      exact ⟨φ, prod, 0, hφ, rfl⟩
  | succ d ih =>
      intro prod isFirst φ hφ
      rw [partitionLoop]
      have hf : 0 < (if isFirst then M else M - 1) := by
        cases isFirst <;> simp <;> omega
      set F := if isFirst then M else M - 1 with hF
      have hL : passOne (fun l => Hv (jvL l)) F prod (fibers (fun l => φ (jvL l)) prod left)
          = fibers (fun l => (fun v => φ v * F + (Hv v / prod) % F) (jvL l))
              (prod * F) left :=
        passOne_fibers _ F prod prod hf _ left (fun l => hφ (jvL l))
      have hR : passOne (fun r => Hv (jvR r)) F prod (fibers (fun r => φ (jvR r)) prod right)
          = fibers (fun r => (fun v => φ v * F + (Hv v / prod) % F) (jvR r))
              (prod * F) right :=
        passOne_fibers _ F prod prod hf _ right (fun r => hφ (jvR r))
      have hψ : ∀ v, φ v * F + (Hv v / prod) % F < prod * F := by
        intro v
        have h1 := hφ v
        have h2 : (Hv v / prod) % F < F := Nat.mod_lt _ hf
        have h3 : φ v * F ≤ (prod - 1) * F := Nat.mul_le_mul_right _ (by omega)
        have h4 : (prod - 1) * F + F = prod * F := by
          have hp : prod = (prod - 1) + 1 := by omega
          conv_rhs => rw [hp, Nat.succ_mul]
        omega
      simp only [hL, hR]
      by_cases hc1 : maxPartBytes szL
          (fibers (fun l => φ (jvL l) * F + (Hv (jvL l) / prod) % F) (prod * F) left) ≤
            (M - 1) * BLOCK_SIZE
      · exact ⟨fun v => φ v * F + (Hv v / prod) % F, prod * F, 0, hψ, by rw [if_pos hc1]⟩
      · by_cases hc2 : maxPartBytes szR
            (fibers (fun r => φ (jvR r) * F + (Hv (jvR r) / prod) % F) (prod * F) right) ≤
              (M - 1) * BLOCK_SIZE
        · exact ⟨fun v => φ v * F + (Hv v / prod) % F, prod * F, 1, hψ,
            by rw [if_neg hc1, if_pos hc2]⟩
        · obtain ⟨ψ, N, side, hψ2, heq⟩ := ih (prod * F) false
            (fun v => φ v * F + (Hv v / prod) % F) hψ
          exact ⟨ψ, N, side, hψ2, by rw [if_neg hc1, if_neg hc2]; exact heq⟩

/-! ## Multiset counting lemmas for join outputs -/

theorem coe_filter_map_bind {γ : Type u} {δ : Type v} (l : List γ) (p : γ → Bool)
    (f : γ → δ) :
    (↑((l.filter p).map f) : Multiset δ) =
      (↑l : Multiset γ).bind (fun x => if p x then (f x ::ₘ 0) else 0) := by
  induction l with
  | nil => simp
  | cons x xs ih =>
      rw [← Multiset.cons_coe, Multiset.cons_bind, List.filter_cons]
      by_cases hp : p x = true
      · rw [if_pos hp, if_pos hp, List.map_cons, ← Multiset.cons_coe, ih,
          ← Multiset.singleton_add]
        rfl
      · rw [if_neg hp, if_neg hp, ih, zero_add]

theorem bind_range_single {γ : Type u} (m : Nat) (X : Multiset γ) :
    ∀ N : Nat, m < N →
      ((↑(List.range N) : Multiset Nat).bind (fun i => if m = i then X else 0)) = X := by
  intro N
  induction N with
  | zero => intro h; omega
  | succ n ih =>
      intro h
      rw [List.range_succ, ← Multiset.coe_add, Multiset.add_bind]
      by_cases hmn : m = n
      · subst hmn
        have hz : ((↑(List.range m) : Multiset Nat).bind
            (fun i => if m = i then X else 0)) = 0 := by
          rw [Multiset.bind_congr (fun i hi => ?_), Multiset.bind_zero]
          rw [if_neg]
          intro hmi
          subst hmi
          exact absurd (List.mem_range.mp (Multiset.mem_coe.mp hi)) (lt_irrefl m)
        rw [hz, zero_add, Multiset.coe_singleton, Multiset.singleton_bind, if_pos rfl]
      · have hm' : m < n := by omega
        rw [ih hm', Multiset.coe_singleton, Multiset.singleton_bind, if_neg hmn,
          add_zero]

theorem bind_fibers_eq {ρ : Type u} {γ : Type v} (g : ρ → Nat) (N : Nat)
    (F : ρ → Multiset γ) :
    ∀ rows : List ρ, (∀ r ∈ rows, g r < N) →
      ((↑(List.range N) : Multiset Nat).bind
        (fun i => (↑(rows.filter (fun r => g r == i)) : Multiset ρ).bind F)) =
      (↑rows : Multiset ρ).bind F := by
  intro rows
  induction rows with
  | nil => intro _; simp
  | cons r rows' ih =>
      intro hg
      have hgr : g r < N := hg r (List.mem_cons_self _ _)
      have hsplit : ∀ i : Nat,
          ((↑((r :: rows').filter (fun r' => g r' == i)) : Multiset ρ).bind F) =
            (if g r = i then F r else 0) +
              ((↑(rows'.filter (fun r' => g r' == i)) : Multiset ρ).bind F) := by
        intro i
        rw [List.filter_cons]
        by_cases hgi : g r = i
        · rw [if_pos (by simpa using hgi), if_pos hgi, ← Multiset.cons_coe,
            Multiset.cons_bind]
        · rw [if_neg (by simpa using hgi), if_neg hgi, zero_add]
      rw [Multiset.bind_congr (fun i _ => hsplit i), Multiset.bind_add,
        bind_range_single (g r) (F r) N hgr,
        ih (fun r' hr' => hg r' (List.mem_cons_of_mem _ hr')), ← Multiset.cons_coe,
        Multiset.cons_bind]

theorem bind_filter_ite {γ : Type u} {δ : Type v} (q : γ → Bool) (p : γ → Prop)
    [DecidablePred p] (m : γ → Multiset δ) (himp : ∀ x, p x → q x = true) :
    ∀ l : List γ,
      ((↑(l.filter q) : Multiset γ).bind (fun x => if p x then m x else 0)) =
        (↑l : Multiset γ).bind (fun x => if p x then m x else 0) := by
  intro l
  induction l with
  | nil => simp
  | cons x xs ih =>
      rw [List.filter_cons, ← Multiset.cons_coe, Multiset.cons_bind]
      by_cases hq : q x = true
      · rw [if_pos hq, ← Multiset.cons_coe, Multiset.cons_bind, ih]
      · have hp : ¬p x := fun hpx => hq (himp x hpx)
        rw [if_neg hq, ih, if_neg hp, zero_add]

theorem buildProbePairsL_eq {L : Type u} {R : Type v} {V : Type w} [DecidableEq V]
    (jvL : L → V) (jvR : R → V) (bp : List L) (pp : List R) :
    buildProbePairsL jvL jvR bp pp =
      pp.flatMap (fun r =>
        (bp.filter (fun b => decide (jvL b = jvR r))).map (fun b => (b, r))) := by
  unfold buildProbePairsL
  split
  · next h =>
      rw [List.isEmpty_iff.mp h]
      simp
  · rfl

theorem buildProbePairsR_eq {L : Type u} {R : Type v} {V : Type w} [DecidableEq V]
    (jvL : L → V) (jvR : R → V) (bp : List R) (pp : List L) :
    buildProbePairsR jvL jvR bp pp =
      pp.flatMap (fun l =>
        (bp.filter (fun b => decide (jvR b = jvL l))).map (fun b => (l, b))) := by
  unfold buildProbePairsR
  split
  · next h =>
      rw [List.isEmpty_iff.mp h]
      simp
  · rfl

/-- Reference multiset both join operators produce: every joining pair
`(l, r)` counted once per occurrence of `l` in `left` and `r` in `right`. -/
theorem matchPairs_coe {L : Type u} {R : Type v} {V : Type w} [DecidableEq V]
    (jvL : L → V) (jvR : R → V) (left : List L) (right : List R) :
    (↑(matchPairs jvL jvR left right) : Multiset (L × R)) =
      (↑left : Multiset L).bind (fun l => (↑right : Multiset R).bind
        (fun r => if jvL l = jvR r then ((l, r) ::ₘ 0) else 0)) := by
  unfold matchPairs
  rw [← Multiset.coe_bind]
  refine Multiset.bind_congr (fun l _ => ?_)
  rw [coe_filter_map_bind]
  refine Multiset.bind_congr (fun r _ => ?_)
  by_cases h : jvL l = jvR r
  · rw [if_pos (decide_eq_true h), if_pos h]
  · rw [if_neg (by simp [h]), if_neg h]

theorem bnlj_coe {L : Type u} {R : Type v} {V : Type w} [DecidableEq V]
    (jvL : L → V) (jvR : R → V) (szL : L → Nat) (Mb : Nat)
    (left : List L) (right : List R) :
    (↑(bnljExecute szL Mb (fun l r => decide (jvL l = jvR r)) left right) :
        Multiset (L × R)) =
      (↑left : Multiset L).bind (fun l => (↑right : Multiset R).bind
        (fun r => if jvL l = jvR r then ((l, r) ::ₘ 0) else 0)) := by
  unfold bnljExecute
  rw [← Multiset.coe_bind]
  have hbuf : ∀ buf : List L,
      (↑(right.flatMap (fun r =>
        (buf.filter (fun l => decide (jvL l = jvR r))).map (fun l => (l, r)))) :
          Multiset (L × R)) =
        (↑buf : Multiset L).bind (fun l => (↑right : Multiset R).bind
          (fun r => if jvL l = jvR r then ((l, r) ::ₘ 0) else 0)) := by
    intro buf
    rw [← Multiset.coe_bind,
      Multiset.bind_congr (fun r _ => coe_filter_map_bind buf _ _),
      Multiset.bind_bind]
    refine Multiset.bind_congr (fun l _ => Multiset.bind_congr (fun r _ => ?_))
    by_cases h : jvL l = jvR r
    · rw [if_pos (decide_eq_true h), if_pos h]
    · rw [if_neg (by simp [h]), if_neg h]
  rw [Multiset.bind_congr (fun buf _ => hbuf buf), ← Multiset.bind_assoc, coe_bind_coe,
    chunkGreedy_flatten]

theorem hashJoin_coe {L : Type u} {R : Type v} {V : Type w} [DecidableEq V]
    (jvL : L → V) (jvR : R → V) (pyhash : V → Nat) (szL : L → Nat) (szR : R → Nat)
    (M : Nat) (hM : 2 ≤ M) (left : List L) (right : List R) :
    (↑(hashJoinExecute jvL jvR pyhash szL szR M left right) : Multiset (L × R)) =
      (↑left : Multiset L).bind (fun l => (↑right : Multiset R).bind
        (fun r => if jvL l = jvR r then ((l, r) ::ₘ 0) else 0)) := by
  obtain ⟨ψ, N, side, hψ, heq⟩ :=
    partitionLoop_fibers szL szR jvL jvR (fun v => hmix (pyhash v)) M hM left right
      DEFAULT_HASH_MAX_DEPTH 1 true (fun _ => 0) (fun _ => Nat.zero_lt_one)
  simp only [hashJoinExecute]
  rw [← fibers_one left, ← fibers_one right, heq]
  dsimp only
  by_cases hside : side = 0
  · rw [if_pos hside]
    unfold fibers
    rw [List.zip_map', List.flatMap_map]
    dsimp only
    rw [← Multiset.coe_bind]
    have hbody : ∀ i : Nat,
        (↑(buildProbePairsL jvL jvR (left.filter (fun l => ψ (jvL l) == i))
            (right.filter (fun r => ψ (jvR r) == i))) : Multiset (L × R)) =
          (↑(right.filter (fun r => ψ (jvR r) == i)) : Multiset R).bind
            (fun r => (↑left : Multiset L).bind
              (fun b => if jvL b = jvR r then ((b, r) ::ₘ 0) else 0)) := by
      intro i
      rw [buildProbePairsL_eq, ← Multiset.coe_bind]
      refine Multiset.bind_congr (fun r hr => ?_)
      have hri : ψ (jvR r) = i := by
        have hmem := (List.mem_filter.mp (Multiset.mem_coe.mp hr)).2
        simpa using hmem
      rw [coe_filter_map_bind]
      have hite : ∀ b : L,
          (if decide (jvL b = jvR r) = true then (((b, r) : L × R) ::ₘ 0) else 0) =
            (if jvL b = jvR r then (((b, r) : L × R) ::ₘ 0) else 0) := by
        intro b
        by_cases h : jvL b = jvR r
        · rw [if_pos (decide_eq_true h), if_pos h]
        · rw [if_neg (by simp [h]), if_neg h]
      rw [Multiset.bind_congr (fun b _ => hite b)]
      exact bind_filter_ite (fun b => ψ (jvL b) == i) (fun b => jvL b = jvR r)
        (fun b => (((b, r) : L × R) ::ₘ 0))
        (fun b hb => by dsimp only at hb ⊢; rw [hb, hri]; simp) left
    rw [Multiset.bind_congr (fun i _ => hbody i),
      bind_fibers_eq (fun r => ψ (jvR r)) N
        (fun r => (↑left : Multiset L).bind
          (fun b => if jvL b = jvR r then ((b, r) ::ₘ 0) else 0))
        right (fun r _ => hψ (jvR r))]
    exact Multiset.bind_bind _ _
  · rw [if_neg hside]
    unfold fibers
    rw [List.zip_map', List.flatMap_map]
    dsimp only
    rw [← Multiset.coe_bind]
    have hbody : ∀ i : Nat,
        (↑(buildProbePairsR jvL jvR (right.filter (fun r => ψ (jvR r) == i))
            (left.filter (fun l => ψ (jvL l) == i))) : Multiset (L × R)) =
          (↑(left.filter (fun l => ψ (jvL l) == i)) : Multiset L).bind
            (fun l => (↑right : Multiset R).bind
              (fun b => if jvR b = jvL l then ((l, b) ::ₘ 0) else 0)) := by
      intro i
      rw [buildProbePairsR_eq, ← Multiset.coe_bind]
      refine Multiset.bind_congr (fun l hl => ?_)
      have hli : ψ (jvL l) = i := by
        have hmem := (List.mem_filter.mp (Multiset.mem_coe.mp hl)).2
        simpa using hmem
      rw [coe_filter_map_bind]
      have hite : ∀ b : R,
          (if decide (jvR b = jvL l) = true then (((l, b) : L × R) ::ₘ 0) else 0) =
            (if jvR b = jvL l then (((l, b) : L × R) ::ₘ 0) else 0) := by
        intro b
        by_cases h : jvR b = jvL l
        · rw [if_pos (decide_eq_true h), if_pos h]
        · rw [if_neg (by simp [h]), if_neg h]
      rw [Multiset.bind_congr (fun b _ => hite b)]
      exact bind_filter_ite (fun b => ψ (jvR b) == i) (fun b => jvR b = jvL l)
        (fun b => (((l, b) : L × R) ::ₘ 0))
        (fun b hb => by dsimp only at hb ⊢; rw [hb, hli]; simp) right
    rw [Multiset.bind_congr (fun i _ => hbody i),
      bind_fibers_eq (fun l => ψ (jvL l)) N
        (fun l => (↑right : Multiset R).bind
          (fun b => if jvR b = jvL l then ((l, b) ::ₘ 0) else 0))
        left (fun l _ => hψ (jvL l))]
    refine Multiset.bind_congr (fun l _ => Multiset.bind_congr (fun r _ => ?_))
    exact if_congr eq_comm rfl rfl

/-- C2: for any finite inputs, equi-join value extractors, native hash and
memory budget `M ≥ 2`, when the join columns are unique on at least one side
(primary key), `HashEqJoinPop.execute` emits the same multiset of joined rows
as `BNLJoinPop.execute` run with the conjunction of the corresponding
equalities as its join condition, regardless of how many partitioning passes
ran or which side was chosen to build.  The hypothesis `hfit` requires every
outer row to fit in the BNLJ's buffer of `Mb` blocks: on a larger row
`BufferedReader.iter_buffer` raises a fatal `ExecutorException` instead of
chunking, so the comparison is only meaningful on inputs satisfying it. -/
theorem hash_equijoin_emits_same_multiset_as_bnlj {L : Type u} {R : Type v}
    {V : Type w} [DecidableEq V] (jvL : L → V) (jvR : R → V) (pyhash : V → Nat)
    (szL : L → Nat) (szR : R → Nat) (M Mb : Nat) (left : List L) (right : List R)
    (hM : 2 ≤ M)
    (_hfit : ∀ l ∈ left, szL l ≤ Mb * BLOCK_SIZE)
    (_hpk : (left.map jvL).Nodup ∨ (right.map jvR).Nodup) :
    List.Perm (hashJoinExecute jvL jvR pyhash szL szR M left right)
      (bnljExecute szL Mb (fun l r => decide (jvL l = jvR r)) left right) := by
  have h1 := hashJoin_coe jvL jvR pyhash szL szR M hM left right
  have h2 := bnlj_coe jvL jvR szL Mb left right
  exact Multiset.coe_eq_coe.mp (h1.trans h2.symm)

theorem hash_equijoin_emits_same_multiset_as_bnlj_witness :
    (2 ≤ 2 ∧ (∀ l ∈ [0, 1], (fun _ : Nat => 1) l ≤ 1 * BLOCK_SIZE) ∧
        (([0, 1].map (id : Nat → Nat)).Nodup ∨ (([1, 2].map (id : Nat → Nat)).Nodup))) ∧
      List.Perm
        (hashJoinExecute (id : Nat → Nat) (id : Nat → Nat) id (fun _ => 1) (fun _ => 1)
          2 [0, 1] [1, 2])
        (bnljExecute (fun _ => 1) 1 (fun l r => decide (id l = id r)) [0, 1] [1, 2]) :=
  ⟨⟨by decide, by decide, Or.inl (by decide)⟩,
    hash_equijoin_emits_same_multiset_as_bnlj (id : Nat → Nat) (id : Nat → Nat) id
      (fun _ => 1) (fun _ => 1) 2 1 [0, 1] [1, 2] (by decide) (by decide)
      (Or.inl (by decide))⟩

end DDB
